import Mathlib

/-!
Verification of the LRU cache core of `src/optimizer/caching/lru-cache.ts`
and its persistence coordinator `persistent-cache.ts`.

The in-memory cache (`LRUCache`) is embedded shallowly: the JavaScript
insertion-ordered `Map` becomes a list of entries (each entry carries its
key, as in the source, where the map key always equals `entry.key`);
`Map.get` is first-match lookup, `Map.set` replaces the binding in place
when the key is present (JavaScript `Map.set` keeps the original position)
and appends otherwise, `Map.delete` filters the key out, and
`keys().next().value` is the head of the list.  Times (`Date.now()`) are
explicit `Nat` arguments.  Statistics ratios are `Rat`.
-/

namespace Toonify

/-- `LRUCacheEntry<T>` from `cache-types.ts` / `lru-cache.ts`. -/
structure LRUCacheEntry (V : Type) where
  key : String
  value : V
  timestamp : Nat
  lastAccessed : Nat
  accessCount : Nat
  expiresAt : Nat
deriving Repr, DecidableEq

/-- `LRUCacheStats` from `lru-cache.ts`. -/
structure LRUCacheStats where
  hits : Nat
  misses : Nat
  evictions : Nat
  expirations : Nat
  currentSize : Nat
  maxSize : Nat
  hitRate : Rat
  averageAccessCount : Rat
deriving Repr, DecidableEq

/-- The fields of `Required<LRUCacheConfig>` that the in-memory cache reads. -/
structure LRUCacheConfig where
  enabled : Bool
  maxSize : Nat
  ttl : Nat
deriving Repr, DecidableEq

/-- First-match lookup, i.e. `Map.get` (keys are unique in an actual JS map). -/
def mapFind {V : Type} : List (LRUCacheEntry V) → String → Option (LRUCacheEntry V)
  | [], _ => none
  | e :: c, k => if e.key = k then some e else mapFind c k

/-- `Map.has`. -/
def mapHas {V : Type} (c : List (LRUCacheEntry V)) (k : String) : Bool :=
  (mapFind c k).isSome

/-- `Map.set`: replace the binding in place when the key is present (JS keeps
the original position), append at the end otherwise. -/
def mapSet {V : Type} (c : List (LRUCacheEntry V)) (e : LRUCacheEntry V) :
    List (LRUCacheEntry V) :=
  if mapHas c e.key then c.map (fun x => if x.key = e.key then e else x)
  else c ++ [e]

/-- `Map.delete`. -/
def mapDelete {V : Type} (c : List (LRUCacheEntry V)) (k : String) :
    List (LRUCacheEntry V) :=
  c.filter (fun x => decide (x.key ≠ k))

/-- The in-memory state of one `LRUCache` instance. -/
structure LRUCacheState (V : Type) where
  cache : List (LRUCacheEntry V)
  stats : LRUCacheStats
  totalAccessCount : Int
  config : LRUCacheConfig
deriving Repr, DecidableEq

namespace LRUCache

/-- The `LRUCache` constructor body (it performs no validation): fresh map,
zeroed statistics. -/
def initState {V : Type} (cfg : LRUCacheConfig) : LRUCacheState V where
  cache := []
  stats :=
    { hits := 0, misses := 0, evictions := 0, expirations := 0,
      currentSize := 0, maxSize := cfg.maxSize, hitRate := 0,
      averageAccessCount := 0 }
  totalAccessCount := 0
  config := cfg

/-- `LRUCache.updateStats`: recompute `hitRate` and `averageAccessCount`
from the counters and the running total. -/
def updateStats {V : Type} (s : LRUCacheState V) : LRUCacheState V :=
  let total := s.stats.hits + s.stats.misses
  { s with stats :=
    { s.stats with
      hitRate := if total > 0 then (s.stats.hits : Rat) / (total : Rat) else 0,
      averageAccessCount :=
        if s.cache.length > 0 then
          (s.totalAccessCount : Rat) / (s.cache.length : Rat)
        else 0 } }

/-- `LRUCache.isExpired`. -/
def isExpired {V : Type} (now : Nat) (e : LRUCacheEntry V) : Bool :=
  decide (now > e.expiresAt)

/-- `LRUCache.get`: returns the looked-up value (or `none`) together with the
state after the call. -/
def get {V : Type} (s : LRUCacheState V) (k : String) (now : Nat) :
    Option V × LRUCacheState V :=
  if s.config.enabled then
    match mapFind s.cache k with
    | none =>
      (none, updateStats
        { s with stats := { s.stats with misses := s.stats.misses + 1 } })
    | some entry =>
      if now > entry.expiresAt then
        (none, updateStats
          { s with
            totalAccessCount := s.totalAccessCount - entry.accessCount,
            cache := mapDelete s.cache k,
            stats := { s.stats with
              expirations := s.stats.expirations + 1,
              misses := s.stats.misses + 1 } })
      else
        let e2 := { entry with lastAccessed := now, accessCount := entry.accessCount + 1 }
        (some entry.value, updateStats
          { s with
            totalAccessCount := s.totalAccessCount + 1,
            cache := mapSet (mapDelete s.cache k) e2,
            stats := { s.stats with hits := s.stats.hits + 1 } })
  else (none, s)

/-- `LRUCache.evictLRU`: `keys().next().value` is the head of the insertion
order; the JS guard `if (firstKey)` is false both for an empty map
(`undefined`) and for the empty-string key (falsy). -/
def evictLRU {V : Type} (s : LRUCacheState V) : LRUCacheState V :=
  match s.cache with
  | [] => s
  | e0 :: _ =>
    if e0.key = "" then s
    else
      let c2 := mapDelete s.cache e0.key
      { s with
        totalAccessCount := s.totalAccessCount - e0.accessCount,
        cache := c2,
        stats := { s.stats with
          evictions := s.stats.evictions + 1,
          currentSize := c2.length } }

/-- The entry object built by `LRUCache.set`. -/
def mkEntry {V : Type} (k : String) (v : V) (now ttl : Nat) : LRUCacheEntry V where
  key := k
  value := v
  timestamp := now
  lastAccessed := now
  accessCount := 0
  expiresAt := now + ttl

/-- `LRUCache.set` (the in-memory part; the mirrored persistence call is
modelled separately in `CacheSys`). -/
def set {V : Type} (s : LRUCacheState V) (k : String) (v : V) (now : Nat) :
    LRUCacheState V :=
  if s.config.enabled then
    let s1 :=
      if s.cache.length ≥ s.config.maxSize ∧ mapHas s.cache k = false then
        evictLRU s
      else s
    let c2 := mapSet s1.cache (mkEntry k v now s.config.ttl)
    { s1 with cache := c2, stats := { s1.stats with currentSize := c2.length } }
  else s

/-- `LRUCache.getStats` returns a copy of the statistics record. -/
def getStats {V : Type} (s : LRUCacheState V) : LRUCacheStats :=
  s.stats

end LRUCache

/-- One externally issued cache operation, with the `Date.now()` value at
which it runs. -/
inductive CacheOp (V : Type) where
  | setOp (k : String) (v : V) (t : Nat)
  | getOp (k : String) (t : Nat)
deriving Repr, DecidableEq

/-- The key an operation addresses. -/
def CacheOp.key {V : Type} : CacheOp V → String
  | .setOp k _ _ => k
  | .getOp k _ => k

/-- Apply one operation (the value returned by `get` is discarded). -/
def applyOp {V : Type} (s : LRUCacheState V) : CacheOp V → LRUCacheState V
  | .setOp k v t => LRUCache.set s k v t
  | .getOp k t => (LRUCache.get s k t).2

/-- Run a sequence of operations. -/
def runOps {V : Type} (s : LRUCacheState V) (ops : List (CacheOp V)) :
    LRUCacheState V :=
  ops.foldl applyOp s

/-- Sum of the `accessCount` fields of all resident entries (the full
recomputation that `totalAccessCount` is meant to track). -/
def accessSum {V : Type} (c : List (LRUCacheEntry V)) : Int :=
  (c.map (fun e => (e.accessCount : Int))).sum

/-- `true` iff no `set` in the run overwrites a key resident at the moment
of that `set` (on an enabled cache). -/
def noOverwriteRun {V : Type} (s : LRUCacheState V) : List (CacheOp V) → Bool
  | [] => true
  | op :: rest =>
    (match op with
     | .setOp k _ _ => !(s.config.enabled && mapHas s.cache k)
     | .getOp _ _ => true)
    && noOverwriteRun (applyOp s op) rest

/-! ### Ghost-instrumented runs

`TouchState` pairs the cache state with a ghost map recording, for each key,
the logical step at which it was last *touched* — where a touch is a `get`
hit or the insertion of a key not currently resident.  (Overwriting a
resident key through `set` keeps the JS `Map` position of the binding, so it
deliberately does not count as a touch here.)  `SetTimeState` records the
`Date.now()` value of each key's most recent `set`. -/

structure TouchState (V : Type) where
  st : LRUCacheState V
  touch : String → Nat
  step : Nat

def applyOpT {V : Type} (g : TouchState V) : CacheOp V → TouchState V
  | .setOp k v t =>
    { st := LRUCache.set g.st k v t,
      touch :=
        if g.st.config.enabled = true ∧ mapHas g.st.cache k = false then
          fun k2 => if k2 = k then g.step else g.touch k2
        else g.touch,
      step := g.step + 1 }
  | .getOp k t =>
    { st := (LRUCache.get g.st k t).2,
      touch :=
        match mapFind g.st.cache k with
        | some e =>
          if g.st.config.enabled = true ∧ ¬ t > e.expiresAt then
            fun k2 => if k2 = k then g.step else g.touch k2
          else g.touch
        | none => g.touch,
      step := g.step + 1 }

def initT {V : Type} (cfg : LRUCacheConfig) : TouchState V :=
  ⟨LRUCache.initState cfg, fun _ => 0, 1⟩

def runT {V : Type} (g : TouchState V) (ops : List (CacheOp V)) : TouchState V :=
  ops.foldl applyOpT g

structure SetTimeState (V : Type) where
  st : LRUCacheState V
  lastSet : String → Option Nat

def applyOpW {V : Type} (g : SetTimeState V) : CacheOp V → SetTimeState V
  | .setOp k v t =>
    { st := LRUCache.set g.st k v t,
      lastSet :=
        if g.st.config.enabled = true then
          fun k2 => if k2 = k then some t else g.lastSet k2
        else g.lastSet }
  | .getOp k t => { st := (LRUCache.get g.st k t).2, lastSet := g.lastSet }

def initW {V : Type} (cfg : LRUCacheConfig) : SetTimeState V :=
  ⟨LRUCache.initState cfg, fun _ => none⟩

def runW {V : Type} (g : SetTimeState V) (ops : List (CacheOp V)) : SetTimeState V :=
  ops.foldl applyOpW g

/-! ### The persistence coordinator (`persistent-cache.ts`)

The logical disk is `Option (List entry)` (`none` = snapshot file absent);
`pendingWrites` is a JS `Map` from key to entry, modelled like the cache
table as an insertion-ordered association list; `timerSet` is whether a
debounce timer is scheduled.  The `executeOperation` cases below are run
sequentially — the FIFO write queue that justifies this sequencing is
modelled and proved separately (`QueueState`). -/

structure PersistState (V : Type) where
  disk : Option (List (LRUCacheEntry V))
  pending : List (String × LRUCacheEntry V)
  timerSet : Bool
deriving Repr, DecidableEq

/-- `Map.get` on the pending-writes map. -/
def pendFind {V : Type} : List (String × LRUCacheEntry V) → String →
    Option (LRUCacheEntry V)
  | [], _ => none
  | x :: p, k => if x.1 = k then some x.2 else pendFind p k

/-- `Map.set` on the pending-writes map (replace in place or append). -/
def pendSet {V : Type} (p : List (String × LRUCacheEntry V)) (k : String)
    (e : LRUCacheEntry V) : List (String × LRUCacheEntry V) :=
  if (pendFind p k).isSome then p.map (fun x => if x.1 = k then (k, e) else x)
  else p ++ [(k, e)]

/-- `Map.delete` on the pending-writes map. -/
def pendDel {V : Type} (p : List (String × LRUCacheEntry V)) (k : String) :
    List (String × LRUCacheEntry V) :=
  p.filter (fun x => decide (x.1 ≠ k))

namespace PersistentCache

/-- `PersistentCache.loadAll` on the logical disk: missing file reads as the
empty list (the parse-failure path is modelled separately by `RawFile`). -/
def loadAllDisk {V : Type} (ps : PersistState V) : List (LRUCacheEntry V) :=
  ps.disk.getD []

/-- `executeOperation`, case `'save'`: the JS guard
`if (operation.key && operation.entry)` skips a falsy key — the empty
string (the entry, an object, is always truthy when present); otherwise
merge into the pending buffer and (re)schedule the debounced flush. -/
def execSave {V : Type} (ps : PersistState V) (k : String)
    (e : LRUCacheEntry V) : PersistState V :=
  if k ≠ "" then { ps with pending := pendSet ps.pending k e, timerSet := true }
  else ps

/-- `executeOperation`, case `'delete'`: the JS guard `if (operation.key)`
skips the falsy empty-string key; otherwise drop the key from the pending
buffer, then filter it out of the snapshot, rewriting only on change. -/
def execDelete {V : Type} (ps : PersistState V) (k : String) : PersistState V :=
  if k ≠ "" then
    let pending2 := pendDel ps.pending k
    let entries := loadAllDisk ps
    let filtered := entries.filter (fun x => decide (x.key ≠ k))
    if filtered.length ≠ entries.length then
      { disk := some filtered, pending := pending2, timerSet := ps.timerSet }
    else { ps with pending := pending2 }
  else ps

/-- `executeOperation`, case `'clear'`: discard pending buffer and timer and
unlink the snapshot file. -/
def execClear {V : Type} (_ps : PersistState V) : PersistState V :=
  { disk := none, pending := [], timerSet := false }

/-- `executeOperation`, case `'saveAll'`: discard pending buffer and timer
and atomically replace the snapshot with exactly the given entries. -/
def execSaveAll {V : Type} (_ps : PersistState V)
    (es : List (LRUCacheEntry V)) : PersistState V :=
  { disk := some es, pending := [], timerSet := false }

/-- `flushPendingWrites`: no-op when the buffer is empty; otherwise
read-merge-write, keyed by cache key, pending entries winning. -/
def flushPendingWrites {V : Type} (ps : PersistState V) : PersistState V :=
  if ps.pending.length = 0 then ps
  else
    let entries := loadAllDisk ps
    let entryMap := entries.foldl (fun m e => pendSet m e.key e) []
    let merged := ps.pending.foldl (fun m x => pendSet m x.1 x.2) entryMap
    { disk := some (merged.map (fun x => x.2)), pending := [], timerSet := false }

/-- `flush`: cancel the timer, flush the pending buffer; the subsequent
queue-drain wait is the FIFO sequencing modelled by `QueueState`. -/
def flush {V : Type} (ps : PersistState V) : PersistState V :=
  flushPendingWrites { ps with timerSet := false }

end PersistentCache

/-- An `LRUCache` together with its optional `PersistentCache`
(`persist = none` when persistence is disabled). -/
structure CacheSys (V : Type) where
  core : LRUCacheState V
  persist : Option (PersistState V)
deriving Repr, DecidableEq

namespace CacheSys

/-- `LRUCache.set` with its mirrored persistence traffic: when eviction
fires, `evictLRU` enqueues `persistentCache.delete(firstKey)`, and `set`
then enqueues `persistentCache.save(key, entry)`; the FIFO queue executes
them in that order. -/
def set {V : Type} (sys : CacheSys V) (k : String) (v : V) (now : Nat) :
    CacheSys V :=
  { core := LRUCache.set sys.core k v now,
    persist := sys.persist.map (fun ps =>
      if sys.core.config.enabled then
        let ps1 :=
          if sys.core.cache.length ≥ sys.core.config.maxSize ∧
              mapHas sys.core.cache k = false then
            match sys.core.cache with
            | [] => ps
            | e0 :: _ =>
              if e0.key = "" then ps else PersistentCache.execDelete ps e0.key
          else ps
        PersistentCache.execSave ps1 k
          (LRUCache.mkEntry k v now sys.core.config.ttl)
      else ps) }

/-- `LRUCache.get` never touches the persistence layer. -/
def get {V : Type} (sys : CacheSys V) (k : String) (now : Nat) :
    Option V × CacheSys V :=
  let r := LRUCache.get sys.core k now
  (r.1, { sys with core := r.2 })

/-- `LRUCache.saveToDisk`: flush, `saveAll` with the current table
contents, flush again. -/
def saveToDisk {V : Type} (sys : CacheSys V) : CacheSys V :=
  match sys.persist with
  | none => sys
  | some ps =>
    let ps1 := PersistentCache.flush ps
    let ps2 := PersistentCache.execSaveAll ps1 sys.core.cache
    let ps3 := PersistentCache.flush ps2
    { sys with persist := some ps3 }

/-- The `LRUCache` constructor with persistence enabled: fresh state, then
`loadFromDisk` seeds the table from `loadAll()`, skipping entries already
expired at load time and accumulating the running total. -/
def initPersistent {V : Type} (cfg : LRUCacheConfig) (ps : PersistState V)
    (now : Nat) : CacheSys V :=
  let core0 : LRUCacheState V := LRUCache.initState cfg
  let core1 := (PersistentCache.loadAllDisk ps).foldl
    (fun c e =>
      if now > e.expiresAt then
        { c with stats := { c.stats with expirations := c.stats.expirations + 1 } }
      else
        { c with cache := mapSet c.cache e,
                 totalAccessCount := c.totalAccessCount + e.accessCount })
    core0
  { core := { core1 with stats := { core1.stats with currentSize := core1.cache.length } },
    persist := some ps }

end CacheSys

/-! ### The FIFO write queue (`queueWrite` / `processQueue`)

Callers append operations to `writeQueue`; `processQueue` drains it under
the `isProcessing` flag.  Each `executeOperation` body contains no `await`,
so on the single-threaded JS event loop an operation's execution (including
its synchronous disk I/O) is atomic; `exec` below is therefore one step.
`arrived`/`executed` are ghost histories. -/

structure QueueState (α : Type) where
  queue : List α
  isProcessing : Bool
  arrived : List α
  executed : List α

/-- One transition of the queue system: a caller enqueues an operation (and
`processQueue` starts if idle), the processor executes the head operation to
completion, or the processor loop exits on an empty queue. -/
inductive QueueStep (α : Type) : QueueState α → QueueState α → Prop where
  | arrive (s : QueueState α) (o : α) :
      QueueStep α s ⟨s.queue ++ [o], true, s.arrived ++ [o], s.executed⟩
  | exec (s : QueueState α) (o : α) (rest : List α) :
      s.queue = o :: rest → s.isProcessing = true →
      QueueStep α s ⟨rest, true, s.arrived, s.executed ++ [o]⟩
  | finish (s : QueueState α) :
      s.queue = [] → s.isProcessing = true →
      QueueStep α s ⟨[], false, s.arrived, s.executed⟩

def initQueue (α : Type) : QueueState α := ⟨[], false, [], []⟩

def QueueReachable (α : Type) (s : QueueState α) : Prop :=
  Relation.ReflTransGen (QueueStep α) (initQueue α) s

/-! ### The snapshot file as read by `loadAll` (`persistent-cache.ts`)

`RawFile` classifies what `existsSync` / `readFileSync` / `JSON.parse` /
`Array.isArray` can observe; `loadAllE` is the `try` block with exceptions
as `Except`, and `loadAll` adds the `catch` that turns any error into the
empty list. -/

inductive RawFile (V : Type) where
  | missing
  | unparseable
  | jsonNonArray
  | jsonArray (es : List (LRUCacheEntry V))
deriving Repr, DecidableEq

/-- The `try` block of `PersistentCache.loadAll`: missing file returns `[]`,
`JSON.parse` throws on unparseable content, a parsed non-array returns `[]`,
a parsed array returns its entries. -/
def loadAllE {V : Type} : RawFile V → Except String (List (LRUCacheEntry V))
  | .missing => .ok []
  | .unparseable => .error "SyntaxError: Unexpected token"
  | .jsonNonArray => .ok []
  | .jsonArray es => .ok es

/-- `PersistentCache.loadAll`: the `catch` handler logs and returns `[]`. -/
def loadAll {V : Type} (f : RawFile V) : List (LRUCacheEntry V) :=
  match loadAllE f with
  | .ok es => es
  | .error _ => []

/-! ### Configuration validation

`LRUCache`'s constructor performs no validation; the `resultCache`
configuration is checked by `TokenOptimizer.validateResultCacheConfig`.
The `typeof` guards of the source are enforced here by the field types;
`persistPath` falsiness covers both `undefined` and the empty string. -/

/-- The dynamic `resultCache` configuration object received by
`validateResultCacheConfig` (`undefined` fields are `none`). -/
structure ResultCacheConfig where
  enabled : Bool
  maxSize : Option Int
  ttl : Option Int
  persistent : Option Bool
  persistPath : Option String
deriving Repr, DecidableEq

def badMaxSize (c : ResultCacheConfig) : Bool :=
  match c.maxSize with
  | some m => decide (m ≤ 0)
  | none => false

def badTtl (c : ResultCacheConfig) : Bool :=
  match c.ttl with
  | some t => decide (t ≤ 0)
  | none => false

def badPersist (c : ResultCacheConfig) : Bool :=
  (c.persistent = some true : Bool) &&
    (decide (c.persistPath = none) || decide (c.persistPath = some ""))

/-- `TokenOptimizer.validateResultCacheConfig`, keeping the source's guard
order (the size/ttl `console.warn` branches do not throw and are omitted). -/
def validateResultCacheConfig (c : ResultCacheConfig) : Except String Unit :=
  if badMaxSize c then .error "resultCache.maxSize must be a positive number"
  else if badTtl c then
    .error "resultCache.ttl must be a positive number (milliseconds)"
  else if badPersist c then
    .error "resultCache.persistPath is required when persistent=true"
  else .ok ()

/-- The `LRUCache` constructor as a fallible operation: its body contains no
validation and no `throw`, so it always succeeds. -/
def constructLRUCache (V : Type) (cfg : LRUCacheConfig) :
    Except String (LRUCacheState V) :=
  .ok (LRUCache.initState cfg)

/-! ### Helper lemmas about the ordered-map model -/

theorem mapFind_some {V : Type} {c : List (LRUCacheEntry V)} {k : String}
    {e : LRUCacheEntry V} (h : mapFind c k = some e) : e.key = k ∧ e ∈ c := by
  induction c with
  | nil => simp [mapFind] at h
  | cons x c ih =>
    by_cases hx : x.key = k
    · simp only [mapFind, if_pos hx] at h
      cases h
      exact ⟨hx, List.mem_cons_self _ _⟩
    · simp only [mapFind, if_neg hx] at h
      rcases ih h with ⟨h1, h2⟩
      exact ⟨h1, List.mem_cons_of_mem _ h2⟩

theorem mapHas_false_iff {V : Type} {c : List (LRUCacheEntry V)} {k : String} :
    mapHas c k = false ↔ ∀ e ∈ c, e.key ≠ k := by
  induction c with
  | nil => simp [mapHas, mapFind]
  | cons x c ih =>
    by_cases hx : x.key = k
    · simp [mapHas, mapFind, hx]
    · simp only [mapHas, mapFind, if_neg hx]
      rw [mapHas] at ih
      simp only [List.mem_cons]
      constructor
      · intro h e he
        rcases he with he | he
        · subst he; exact hx
        · exact (ih.mp h) e he
      · intro h
        exact ih.mpr (fun e he => h e (Or.inr he))

theorem mapHas_true_iff {V : Type} {c : List (LRUCacheEntry V)} {k : String} :
    mapHas c k = true ↔ ∃ e ∈ c, e.key = k := by
  rcases h : mapHas c k with _ | _
  · simp only [mapHas_false_iff] at h
    simp only [Bool.false_eq_true, false_iff]
    push_neg
    exact h
  · simp only [true_iff]
    rcases hf : mapFind c k with _ | e
    · rw [mapHas, hf] at h; simp at h
    · rcases mapFind_some hf with ⟨h1, h2⟩
      exact ⟨e, h2, h1⟩

theorem mapDelete_of_not_has {V : Type} {c : List (LRUCacheEntry V)}
    {k : String} (h : ∀ e ∈ c, e.key ≠ k) : mapDelete c k = c := by
  rw [mapDelete, List.filter_eq_self]
  intro e he
  simp [h e he]

theorem mapFind_mapDelete_self {V : Type} (c : List (LRUCacheEntry V))
    (k : String) : mapFind (mapDelete c k) k = none := by
  induction c with
  | nil => rfl
  | cons x c ih =>
    by_cases hx : x.key = k
    · simpa [mapDelete, List.filter, hx] using ih
    · simpa [mapDelete, List.filter, hx, mapFind] using ih

theorem mapHas_mapDelete_self {V : Type} (c : List (LRUCacheEntry V))
    (k : String) : mapHas (mapDelete c k) k = false := by
  simp [mapHas, mapFind_mapDelete_self]

theorem mapSet_of_not_has {V : Type} {c : List (LRUCacheEntry V)}
    {e : LRUCacheEntry V} (h : mapHas c e.key = false) :
    mapSet c e = c ++ [e] := by
  simp [mapSet, mapHas] at h ⊢
  rw [h]
  simp

theorem mapDelete_sublist {V : Type} (c : List (LRUCacheEntry V)) (k : String) :
    (mapDelete c k).Sublist c :=
  List.filter_sublist c

theorem mapDelete_length_le {V : Type} (c : List (LRUCacheEntry V))
    (k : String) : (mapDelete c k).length ≤ c.length :=
  (mapDelete_sublist c k).length_le

theorem mapDelete_length_lt {V : Type} {c : List (LRUCacheEntry V)}
    {k : String} {e : LRUCacheEntry V} (he : e ∈ c) (hk : e.key = k) :
    (mapDelete c k).length < c.length := by
  rcases Nat.lt_or_ge (mapDelete c k).length c.length with h | h
  · exact h
  · exfalso
    have heq : (mapDelete c k).length = c.length :=
      le_antisymm (mapDelete_length_le c k) h
    have hceq : mapDelete c k = c := (mapDelete_sublist c k).eq_of_length heq
    have hmem : e ∈ mapDelete c k := by rw [hceq]; exact he
    have := (List.mem_filter.mp hmem).2
    simp [hk] at this

/-! ### Frame lemmas for `updateStats` and configuration preservation -/

@[simp]
theorem updateStats_cache {V : Type} (s : LRUCacheState V) :
    (LRUCache.updateStats s).cache = s.cache := rfl

@[simp]
theorem updateStats_totalAccessCount {V : Type} (s : LRUCacheState V) :
    (LRUCache.updateStats s).totalAccessCount = s.totalAccessCount := rfl

@[simp]
theorem updateStats_config {V : Type} (s : LRUCacheState V) :
    (LRUCache.updateStats s).config = s.config := rfl

@[simp]
theorem updateStats_hits {V : Type} (s : LRUCacheState V) :
    (LRUCache.updateStats s).stats.hits = s.stats.hits := rfl

@[simp]
theorem updateStats_misses {V : Type} (s : LRUCacheState V) :
    (LRUCache.updateStats s).stats.misses = s.stats.misses := rfl

@[simp]
theorem updateStats_evictions {V : Type} (s : LRUCacheState V) :
    (LRUCache.updateStats s).stats.evictions = s.stats.evictions := rfl

@[simp]
theorem updateStats_expirations {V : Type} (s : LRUCacheState V) :
    (LRUCache.updateStats s).stats.expirations = s.stats.expirations := rfl

@[simp]
theorem updateStats_currentSize {V : Type} (s : LRUCacheState V) :
    (LRUCache.updateStats s).stats.currentSize = s.stats.currentSize := rfl

@[simp]
theorem updateStats_maxSize {V : Type} (s : LRUCacheState V) :
    (LRUCache.updateStats s).stats.maxSize = s.stats.maxSize := rfl

theorem get_config {V : Type} (s : LRUCacheState V) (k : String) (now : Nat) :
    (LRUCache.get s k now).2.config = s.config := by
  rw [LRUCache.get]
  by_cases he : s.config.enabled
  · simp only [if_pos he]
    rcases mapFind s.cache k with _ | e
    · simp
    · by_cases hx : now > e.expiresAt <;> simp [hx]
  · simp [he]

theorem evictLRU_config {V : Type} (s : LRUCacheState V) :
    (LRUCache.evictLRU s).config = s.config := by
  rw [LRUCache.evictLRU]
  rcases s.cache with _ | ⟨e0, c⟩
  · rfl
  · by_cases hk : e0.key = "" <;> simp [hk]

theorem set_config {V : Type} (s : LRUCacheState V) (k : String) (v : V)
    (now : Nat) : (LRUCache.set s k v now).config = s.config := by
  rw [LRUCache.set]
  by_cases he : s.config.enabled
  · simp only [if_pos he]
    by_cases hc : s.cache.length ≥ s.config.maxSize ∧ mapHas s.cache k = false
    · simp [hc, evictLRU_config]
    · simp [hc]
  · simp [he]

theorem applyOp_config {V : Type} (s : LRUCacheState V) (op : CacheOp V) :
    (applyOp s op).config = s.config := by
  cases op with
  | setOp k v t => exact set_config s k v t
  | getOp k t => exact get_config s k t

theorem runOps_config {V : Type} (s : LRUCacheState V) (ops : List (CacheOp V)) :
    (runOps s ops).config = s.config := by
  induction ops generalizing s with
  | nil => rfl
  | cons op ops ih =>
    have h1 : runOps s (op :: ops) = runOps (applyOp s op) ops := rfl
    rw [h1, ih, applyOp_config]

/-! ### Claim theorems -/

/-- C3: `get` behaves by exactly three cases.  Key absent: miss is returned,
only the miss counter moves, table and running total unchanged.  Key present
but `now > expiresAt`: miss, entry removed, miss and expiration counters
move, running total drops by the removed entry's `accessCount`.  Otherwise:
hit; the entry moves to the most-recently-used (last) position with
`accessCount` incremented, running total and hit counter increment, and the
stored value is returned. -/
theorem get_three_cases {V : Type} (s : LRUCacheState V) (k : String) (now : Nat)
    (hen : s.config.enabled = true) :
    (mapFind s.cache k = none →
      (LRUCache.get s k now).1 = none ∧
      (LRUCache.get s k now).2.cache = s.cache ∧
      (LRUCache.get s k now).2.stats.misses = s.stats.misses + 1 ∧
      (LRUCache.get s k now).2.stats.hits = s.stats.hits ∧
      (LRUCache.get s k now).2.stats.expirations = s.stats.expirations ∧
      (LRUCache.get s k now).2.stats.evictions = s.stats.evictions ∧
      (LRUCache.get s k now).2.totalAccessCount = s.totalAccessCount) ∧
    (∀ e, mapFind s.cache k = some e → now > e.expiresAt →
      (LRUCache.get s k now).1 = none ∧
      (LRUCache.get s k now).2.cache = mapDelete s.cache k ∧
      (LRUCache.get s k now).2.stats.misses = s.stats.misses + 1 ∧
      (LRUCache.get s k now).2.stats.expirations = s.stats.expirations + 1 ∧
      (LRUCache.get s k now).2.stats.hits = s.stats.hits ∧
      (LRUCache.get s k now).2.stats.evictions = s.stats.evictions ∧
      (LRUCache.get s k now).2.totalAccessCount =
        s.totalAccessCount - e.accessCount) ∧
    (∀ e, mapFind s.cache k = some e → ¬ now > e.expiresAt →
      (LRUCache.get s k now).1 = some e.value ∧
      (LRUCache.get s k now).2.cache =
        mapDelete s.cache k ++
          [{ e with lastAccessed := now, accessCount := e.accessCount + 1 }] ∧
      (LRUCache.get s k now).2.stats.hits = s.stats.hits + 1 ∧
      (LRUCache.get s k now).2.totalAccessCount = s.totalAccessCount + 1 ∧
      (LRUCache.get s k now).2.stats.misses = s.stats.misses ∧
      (LRUCache.get s k now).2.stats.expirations = s.stats.expirations ∧
      (LRUCache.get s k now).2.stats.evictions = s.stats.evictions) := by
  refine ⟨?_, ?_, ?_⟩
  · intro h
    rw [LRUCache.get]
    simp [hen, h]
  · intro e he hexp
    rw [LRUCache.get]
    simp [hen, he, hexp]
  · intro e he hexp
    have hk : e.key = k := (mapFind_some he).1
    have hnothas : mapHas (mapDelete s.cache k)
        ({ e with lastAccessed := now, accessCount := e.accessCount + 1 } :
          LRUCacheEntry V).key = false := by
      show mapHas (mapDelete s.cache k) e.key = false
      rw [hk]
      exact mapHas_mapDelete_self s.cache k
    rw [LRUCache.get]
    simp only [hen, if_true, he, hexp, if_false]
    simp [mapSet_of_not_has hnothas]

/-- A state holding the single entry `set` at time 0 with value 7 and a
one-second TTL, used to witness the three `get` cases concretely. -/
def sampleHitState : LRUCacheState Nat :=
  runOps (LRUCache.initState ⟨true, 10, 1000⟩) [.setOp "a" 7 0]

/-- Witness for C3: on the sample state, `get "a"` at time 5 is a hit
returning 7, `get "b"` is an absent-key miss incrementing the miss counter,
and `get "a"` at time 2000 is an expiry miss incrementing the expiration
counter. -/
theorem get_three_cases_witness :
    (LRUCache.get sampleHitState "a" 5).1 = some 7 ∧
    (LRUCache.get sampleHitState "b" 5).2.stats.misses =
      sampleHitState.stats.misses + 1 ∧
    (LRUCache.get sampleHitState "a" 2000).2.stats.expirations =
      sampleHitState.stats.expirations + 1 := by
  have h := get_three_cases sampleHitState "a" 5 (by decide)
  have hm := get_three_cases sampleHitState "b" 5 (by decide)
  have hx := get_three_cases sampleHitState "a" 2000 (by decide)
  refine ⟨?_, ?_, ?_⟩
  · exact (h.2.2 (LRUCache.mkEntry "a" 7 0 1000) (by decide) (by decide)).1
  · exact (hm.1 (by decide)).2.2.1
  · exact (hx.2.1 (LRUCache.mkEntry "a" 7 0 1000) (by decide) (by decide)).2.2.2.1

/-- C10: with `enabled: false`, `get` returns `undefined` and leaves the
whole system (table, statistics, running total, persistence layer)
untouched, and `set` is a complete no-op. -/
theorem disabled_cache_noop {V : Type} (sys : CacheSys V) (k : String) (v : V)
    (now : Nat) (hdis : sys.core.config.enabled = false) :
    CacheSys.get sys k now = (none, sys) ∧ CacheSys.set sys k v now = sys := by
  constructor
  · rw [CacheSys.get, LRUCache.get]
    simp [hdis]
  · rw [CacheSys.set, LRUCache.set]
    simp [hdis]

/-- A concrete disabled cache system. -/
def sampleDisabledSys : CacheSys Nat :=
  ⟨LRUCache.initState ⟨false, 10, 1000⟩, none⟩

/-- Witness for C10 at a concrete disabled system. -/
theorem disabled_cache_noop_witness :
    sampleDisabledSys.core.config.enabled = false ∧
    CacheSys.get sampleDisabledSys "k" 5 = (none, sampleDisabledSys) ∧
    CacheSys.set sampleDisabledSys "k" 3 5 = sampleDisabledSys :=
  ⟨by decide, (disabled_cache_noop sampleDisabledSys "k" 3 5 (by decide)).1,
    (disabled_cache_noop sampleDisabledSys "k" 3 5 (by decide)).2⟩

/-- Counterexample to C1 as stated.  First: with `maxSize = 1`, setting the
empty-string key and then a second key leaves `currentSize = 2`, because
`evictLRU`'s `if (firstKey)` guard is falsy on `""` and skips eviction.
Second: with `maxSize = 2`, after `set a; set b; set a; set c` the code
evicts `a` (the JS `Map` keeps an overwritten key at its original position),
even though `a` was touched by `set` more recently than `b` — so the victim
is not the least recently touched by access or insertion. -/
theorem lru_eviction_claim_counterexample :
    ((runOps (V := Nat) (LRUCache.initState ⟨true, 1, 1000⟩)
        [.setOp "" 0 0, .setOp "x" 0 1]).stats.currentSize = 2 ∧
      (⟨true, 1, 1000⟩ : LRUCacheConfig).maxSize = 1) ∧
    ((runOps (V := Nat) (LRUCache.initState ⟨true, 2, 1000⟩)
        [.setOp "a" 0 0, .setOp "b" 0 1, .setOp "a" 0 2,
          .setOp "c" 0 3]).cache.map (fun e => e.key) = ["b", "c"] ∧
      mapHas (runOps (V := Nat) (LRUCache.initState ⟨true, 2, 1000⟩)
        [.setOp "a" 0 0, .setOp "b" 0 1, .setOp "a" 0 2,
          .setOp "c" 0 3]).cache "a" = false) := by
  decide

/-- Counterexample to C2 as stated.  First: `set a; get a; set a` leaves
`totalAccessCount = 1` while the table's accessCounts sum to 0 — overwriting
a resident key loses its count from the running total, which `set` never
decrements.  Second: `set a; get a; set b` leaves the reported
`averageAccessCount` at 1 (computed by the `get`, and `set` never calls
`updateStats`) while a full recomputation gives 1/2. -/
theorem runningTotal_claim_counterexample :
    ((runOps (V := Nat) (LRUCache.initState ⟨true, 10, 1000⟩)
        [.setOp "a" 1 0, .getOp "a" 1, .setOp "a" 2 2]).totalAccessCount = 1 ∧
      accessSum (runOps (V := Nat) (LRUCache.initState ⟨true, 10, 1000⟩)
        [.setOp "a" 1 0, .getOp "a" 1, .setOp "a" 2 2]).cache = 0) ∧
    ((LRUCache.getStats (runOps (V := Nat) (LRUCache.initState ⟨true, 10, 1000⟩)
        [.setOp "a" 1 0, .getOp "a" 1, .setOp "b" 2 2])).averageAccessCount = 1 ∧
      (runOps (V := Nat) (LRUCache.initState ⟨true, 10, 1000⟩)
        [.setOp "a" 1 0, .getOp "a" 1, .setOp "b" 2 2]).cache.length = 2 ∧
      accessSum (runOps (V := Nat) (LRUCache.initState ⟨true, 10, 1000⟩)
        [.setOp "a" 1 0, .getOp "a" 1, .setOp "b" 2 2]).cache = 1 ∧
      (1 : Rat) ≠ (1 : Rat) / (2 : Rat)) := by
  refine ⟨⟨by decide, by decide⟩, ?_, by decide, by decide, by norm_num⟩
  simp only [runOps, applyOp, List.foldl, LRUCache.initState, LRUCache.set,
    LRUCache.get, LRUCache.updateStats, LRUCache.getStats, LRUCache.mkEntry,
    LRUCache.evictLRU, mapFind, mapSet, mapHas, mapDelete, accessSum]
  norm_num

/-- Counterexample to C9 as stated: the `LRUCache` constructor accepts
`maxSize = 0` without any error (its body contains no validation), and the
resulting cache silently operates past its capacity bound. -/
theorem constructor_no_validation_counterexample :
    constructLRUCache Nat ⟨true, 0, 3600000⟩ =
      .ok (LRUCache.initState ⟨true, 0, 3600000⟩) ∧
    (LRUCache.set (LRUCache.initState (V := Nat) ⟨true, 0, 3600000⟩)
        "a" 1 0).cache.length = 1 ∧
    (⟨true, 0, 3600000⟩ : LRUCacheConfig).maxSize = 0 := by
  refine ⟨rfl, ?_, rfl⟩
  decide

/-- C9 (amended): the validation lives in `TokenOptimizer`'s constructor,
not the cache's.  `validateResultCacheConfig` rejects every configuration
with `maxSize ≤ 0`, `ttl ≤ 0`, or persistence enabled without a (truthy)
storage path, while the `LRUCache` constructor itself never fails. -/
theorem validation_rejects_invalid_config (c : ResultCacheConfig)
    (h : (∃ m, c.maxSize = some m ∧ m ≤ 0) ∨ (∃ t, c.ttl = some t ∧ t ≤ 0) ∨
      (c.persistent = some true ∧
        (c.persistPath = none ∨ c.persistPath = some ""))) :
    (∃ msg, validateResultCacheConfig c = .error msg) ∧
    ∀ (V : Type) (cfg : LRUCacheConfig),
      constructLRUCache V cfg = .ok (LRUCache.initState cfg) := by
  refine ⟨?_, fun V cfg => rfl⟩
  rw [validateResultCacheConfig]
  by_cases h1 : badMaxSize c
  · exact ⟨"resultCache.maxSize must be a positive number", by simp [h1]⟩
  · by_cases h2 : badTtl c
    · exact ⟨"resultCache.ttl must be a positive number (milliseconds)",
        by simp [h1, h2]⟩
    · by_cases h3 : badPersist c
      · exact ⟨"resultCache.persistPath is required when persistent=true",
          by simp [h1, h2, h3]⟩
      · exfalso
        rcases h with ⟨m, hm, hle⟩ | ⟨t, ht, hle⟩ | ⟨hp, hpath⟩
        · rw [badMaxSize, hm] at h1
          simp [hle] at h1
        · rw [badTtl, ht] at h2
          simp [hle] at h2
        · rw [badPersist, hp] at h3
          rcases hpath with hpath | hpath <;> simp [hpath] at h3

/-- Witness for the amended C9: a configuration with `maxSize = 0` is
rejected, and a valid `LRUCache` construction succeeds. -/
theorem validation_rejects_invalid_config_witness :
    (∃ msg, validateResultCacheConfig
      ⟨true, some 0, some 3600000, some false, none⟩ = .error msg) ∧
    constructLRUCache Nat ⟨true, 500, 3600000⟩ =
      .ok (LRUCache.initState ⟨true, 500, 3600000⟩) := by
  have h := validation_rejects_invalid_config
    ⟨true, some 0, some 3600000, some false, none⟩
    (Or.inl ⟨0, rfl, le_refl 0⟩)
  exact ⟨h.1, h.2 Nat ⟨true, 500, 3600000⟩⟩

/-- C6: `loadAll` is total — by its type it returns a plain list, and on a
missing file, unparseable content (where `JSON.parse` raises inside the
`try`), or parsed non-array content it returns the empty list; only a
parsed array yields entries. -/
theorem loadAll_total_on_failures {V : Type} (f : RawFile V) :
    loadAll f = (match f with | .jsonArray es => es | _ => []) := by
  cases f <;> rfl

/-- C4: in every interleaving of caller enqueues with processor steps, the
executed history is a prefix of the arrival history with the queue holding
exactly the remainder in order — operations run one at a time (each `exec`
step is atomic, as `executeOperation` contains no `await`), strictly in
FIFO arrival order, and an idle processor means an empty queue. -/
theorem write_queue_fifo {α : Type} (s : QueueState α) (h : QueueReachable α s) :
    s.arrived = s.executed ++ s.queue ∧
    (s.isProcessing = false → s.queue = []) := by
  induction h with
  | refl => exact ⟨rfl, fun _ => rfl⟩
  | tail hab hbc ih =>
    cases hbc with
    | arrive o => exact ⟨by simp [ih.1], by simp⟩
    | exec o rest hq hp =>
      refine ⟨?_, by simp⟩
      simp only [ih.1, hq]
      simp
    | finish hq hp =>
      refine ⟨?_, fun _ => rfl⟩
      have := ih.1
      rw [hq] at this
      simpa using this

/-- Witness for C4: after `arrive a; arrive b; exec a`, the state
`⟨["b"], true, ["a","b"], ["a"]⟩` is reachable and satisfies the FIFO
equation. -/
theorem write_queue_fifo_witness :
    (⟨["b"], true, ["a", "b"], ["a"]⟩ : QueueState String).arrived =
      (⟨["b"], true, ["a", "b"], ["a"]⟩ : QueueState String).executed ++
        (⟨["b"], true, ["a", "b"], ["a"]⟩ : QueueState String).queue := by
  have h1 : QueueStep String (initQueue String) ⟨["a"], true, ["a"], []⟩ :=
    QueueStep.arrive (initQueue String) "a"
  have h2 : QueueStep String ⟨["a"], true, ["a"], []⟩
      ⟨["a", "b"], true, ["a", "b"], []⟩ :=
    QueueStep.arrive ⟨["a"], true, ["a"], []⟩ "b"
  have h3 : QueueStep String ⟨["a", "b"], true, ["a", "b"], []⟩
      ⟨["b"], true, ["a", "b"], ["a"]⟩ :=
    QueueStep.exec ⟨["a", "b"], true, ["a", "b"], []⟩ "a" ["b"] rfl rfl
  have hreach : QueueReachable String ⟨["b"], true, ["a", "b"], ["a"]⟩ :=
    Relation.ReflTransGen.head h1
      (Relation.ReflTransGen.head h2 (Relation.ReflTransGen.single h3))
  exact (write_queue_fifo _ hreach).1

/-! ### Pending-buffer helper lemmas for the persistence coordinator -/

theorem filter_length_eq_all {α : Type} {p : α → Bool} {l : List α}
    (h : (l.filter p).length = l.length) : ∀ a ∈ l, p a = true := by
  induction l with
  | nil => intro a ha; cases ha
  | cons x l ih =>
    intro a ha
    rcases hp : p x with _ | _
    · exfalso
      rw [List.filter_cons, hp] at h
      simp only [Bool.false_eq_true, if_false, List.length_cons] at h
      have hle : (l.filter p).length ≤ l.length := (List.filter_sublist l).length_le
      omega
    · rcases List.mem_cons.mp ha with rfl | ha2
      · exact hp
      · apply ih ?_ a ha2
        rw [List.filter_cons, hp] at h
        simpa using h

theorem pendSet_mem_cases {V : Type} {m : List (String × LRUCacheEntry V)}
    {k : String} {e : LRUCacheEntry V} {x : String × LRUCacheEntry V}
    (hx : x ∈ pendSet m k e) : x = (k, e) ∨ x ∈ m := by
  rw [pendSet] at hx
  by_cases hh : (pendFind m k).isSome = true
  · rw [if_pos hh] at hx
    rcases List.mem_map.mp hx with ⟨y, hy, hxy⟩
    by_cases hk : y.1 = k
    · rw [if_pos hk] at hxy
      exact Or.inl hxy.symm
    · rw [if_neg hk] at hxy
      exact Or.inr (hxy ▸ hy)
  · rw [if_neg hh] at hx
    rcases List.mem_append.mp hx with h | h
    · exact Or.inr h
    · exact Or.inl (List.mem_singleton.mp h)

theorem pendSet_all {V : Type} {P : String × LRUCacheEntry V → Prop}
    {m : List (String × LRUCacheEntry V)} {k : String} {e : LRUCacheEntry V}
    (hm : ∀ x ∈ m, P x) (he : P (k, e)) : ∀ x ∈ pendSet m k e, P x := by
  intro x hx
  rcases pendSet_mem_cases hx with h | h
  · rw [h]; exact he
  · exact hm x h

theorem foldl_pendSet_pairs_all {V : Type} {P : String × LRUCacheEntry V → Prop}
    (l : List (String × LRUCacheEntry V)) :
    ∀ m, (∀ x ∈ m, P x) → (∀ x ∈ l, P x) →
      ∀ x ∈ l.foldl (fun m2 y => pendSet m2 y.1 y.2) m, P x := by
  induction l with
  | nil => intro m hm _ x hx; exact hm x hx
  | cons y l ih =>
    intro m hm hl x hx
    simp only [List.foldl_cons] at hx
    refine ih (pendSet m y.1 y.2) ?_ (fun z hz => hl z (List.mem_cons_of_mem _ hz)) x hx
    exact pendSet_all hm (hl y (List.mem_cons_self _ _))

theorem foldl_pendSet_entries_all {V : Type} {P : String × LRUCacheEntry V → Prop}
    (l : List (LRUCacheEntry V)) :
    ∀ m, (∀ x ∈ m, P x) → (∀ e ∈ l, P (e.key, e)) →
      ∀ x ∈ l.foldl (fun m2 e => pendSet m2 e.key e) m, P x := by
  induction l with
  | nil => intro m hm _ x hx; exact hm x hx
  | cons y l ih =>
    intro m hm hl x hx
    simp only [List.foldl_cons] at hx
    refine ih (pendSet m y.key y) ?_ (fun z hz => hl z (List.mem_cons_of_mem _ hz)) x hx
    exact pendSet_all hm (hl y (List.mem_cons_self _ _))

theorem execDelete_disk_no_key {V : Type} (ps : PersistState V) (k : String)
    (hk : k ≠ "") :
    ∀ y ∈ (PersistentCache.execDelete ps k).disk.getD [], y.key ≠ k := by
  intro y hy
  rw [PersistentCache.execDelete, if_pos hk] at hy
  by_cases hlen : ((PersistentCache.loadAllDisk ps).filter
      (fun x => decide (x.key ≠ k))).length ≠ (PersistentCache.loadAllDisk ps).length
  · rw [if_pos hlen] at hy
    simp only [Option.getD_some] at hy
    have := (List.mem_filter.mp hy).2
    simpa using this
  · rw [if_neg hlen] at hy
    push_neg at hlen
    have hall := filter_length_eq_all hlen
    rcases hd : ps.disk with _ | l
    · rw [hd] at hy
      cases hy
    · rw [hd] at hy
      simp only [Option.getD_some] at hy
      have := hall y (by rw [PersistentCache.loadAllDisk, hd]; exact hy)
      simpa using this

/-- Counterexample to C5 as stated ("for every key and every prior
persisted state").  The empty-string key is reachable on disk —
`LRUCache.set` accepts `""` and `saveToDisk` persists the whole table —
and for `k = ""` the `if (operation.key && operation.entry)` and
`if (operation.key)` guards in `executeOperation` make the queued save and
delete no-ops, so after `flush()` the previously persisted `""` entry is
still in the snapshot rather than absent. -/
theorem save_delete_flush_empty_key_counterexample :
    (PersistentCache.flush (PersistentCache.execDelete
        (PersistentCache.execSave
          (⟨some [⟨"", 5, 0, 0, 0, 99999⟩], [], false⟩ : PersistState Nat) ""
          ⟨"", 9, 5, 5, 0, 99999⟩) "")).disk =
      some [⟨"", 5, 0, 0, 0, 99999⟩] ∧
    ((PersistentCache.flush (PersistentCache.execDelete
        (PersistentCache.execSave
          (⟨some [⟨"", 5, 0, 0, 0, 99999⟩], [], false⟩ : PersistState Nat) ""
          ⟨"", 9, 5, 5, 0, 99999⟩) "")).disk.getD []).map
      (fun y => y.key) = [""] := by
  decide

/-- C5 (amended): for every *non-empty* key `k`, `save(k, entry)` followed
by `delete(k)` followed by `flush()` leaves `k` absent from the persisted
snapshot: the delete drops `k` from the pending buffer and filters it off
disk, so the flush's read-merge-write cannot reintroduce it.  The `hwf`
hypothesis says each buffered pair is key-consistent, as every pair
enqueued by `LRUCache.set` is.  (For `k = ""` the claim fails: the
truthiness guards in `executeOperation` make both the save and the delete
no-ops, so a previously persisted empty-string entry survives — see the
counterexample.) -/
theorem save_then_delete_then_flush {V : Type} (ps : PersistState V)
    (k : String) (e : LRUCacheEntry V) (hk : k ≠ "")
    (hwf : ∀ x ∈ ps.pending, x.2.key = x.1) :
    ∀ y ∈ (PersistentCache.flush (PersistentCache.execDelete
        (PersistentCache.execSave ps k e) k)).disk.getD [], y.key ≠ k := by
  set ps1 := PersistentCache.execSave ps k e with hps1
  set ps2 := PersistentCache.execDelete ps1 k with hps2
  have hpend2a : ∀ x ∈ ps2.pending, x.1 ≠ k := by
    intro x hx
    rw [hps2, PersistentCache.execDelete, if_pos hk] at hx
    by_cases hlen : ((PersistentCache.loadAllDisk ps1).filter
        (fun z => decide (z.key ≠ k))).length ≠ (PersistentCache.loadAllDisk ps1).length
    · rw [if_pos hlen] at hx
      simp only at hx
      have := (List.mem_filter.mp hx).2
      simpa using this
    · rw [if_neg hlen] at hx
      simp only at hx
      have := (List.mem_filter.mp hx).2
      simpa using this
  have hpend2b : ∀ x ∈ ps2.pending, x.2.key = x.1 := by
    intro x hx
    have hxk : x.1 ≠ k := hpend2a x hx
    have hx2 : x ∈ pendDel ps1.pending k := by
      rw [hps2, PersistentCache.execDelete, if_pos hk] at hx
      by_cases hlen : ((PersistentCache.loadAllDisk ps1).filter
          (fun z => decide (z.key ≠ k))).length ≠ (PersistentCache.loadAllDisk ps1).length
      · rw [if_pos hlen] at hx
        exact hx
      · rw [if_neg hlen] at hx
        exact hx
    have hx3 : x ∈ ps1.pending := List.mem_of_mem_filter hx2
    rw [hps1, PersistentCache.execSave, if_pos hk] at hx3
    simp only at hx3
    rcases pendSet_mem_cases hx3 with h | h
    · exfalso
      apply hxk
      rw [h]
    · exact hwf x h
  have hdisk2 : ∀ y ∈ ps2.disk.getD [], y.key ≠ k := by
    rw [hps2]
    exact execDelete_disk_no_key ps1 k hk
  rw [PersistentCache.flush, PersistentCache.flushPendingWrites]
  by_cases hp : ({ ps2 with timerSet := false } : PersistState V).pending.length = 0
  · rw [if_pos hp]
    intro y hy
    exact hdisk2 y hy
  · rw [if_neg hp]
    simp only [Option.getD_some]
    intro y hy
    rcases List.mem_map.mp hy with ⟨x, hx, hxy⟩
    have hP : ∀ x2 ∈ (({ ps2 with timerSet := false } : PersistState V).pending.foldl
        (fun m2 y2 => pendSet m2 y2.1 y2.2)
        ((PersistentCache.loadAllDisk { ps2 with timerSet := false }).foldl
          (fun m2 e2 => pendSet m2 e2.key e2) [])),
        x2.2.key = x2.1 ∧ x2.1 ≠ k := by
      apply foldl_pendSet_pairs_all
      · apply foldl_pendSet_entries_all
        · intro z hz
          cases hz
        · intro e2 he2
          refine ⟨rfl, ?_⟩
          exact hdisk2 e2 he2
      · intro z hz
        exact ⟨hpend2b z hz, hpend2a z hz⟩
    rcases hP x hx with ⟨h1, h2⟩
    rw [← hxy, h1]
    exact h2

/-- A concrete persisted state: disk entries keyed `a` and `b`, one pending
write keyed `c`. -/
def samplePersistState : PersistState Nat :=
  ⟨some [⟨"a", 1, 0, 0, 0, 99999⟩, ⟨"b", 2, 0, 0, 0, 99999⟩],
    [("c", ⟨"c", 3, 0, 0, 0, 99999⟩)], false⟩

/-- Witness for C5: saving then deleting key `a` and flushing on the sample
state leaves no entry keyed `a` in the snapshot. -/
theorem save_then_delete_then_flush_witness :
    ((PersistentCache.flush (PersistentCache.execDelete
        (PersistentCache.execSave samplePersistState "a"
          ⟨"a", 9, 5, 5, 0, 99999⟩) "a")).disk.getD []).all
      (fun y => decide (y.key ≠ "a")) = true := by
  rw [List.all_eq_true]
  intro y hy
  have h := save_then_delete_then_flush samplePersistState "a"
    ⟨"a", 9, 5, 5, 0, 99999⟩ (by decide) (by decide) y hy
  simpa using h

/-! ### Helper lemmas about `set` and `get` used by the round-trip and
invariant proofs -/

@[simp]
theorem mkEntry_key {V : Type} (k : String) (v : V) (now ttl : Nat) :
    (LRUCache.mkEntry k v now ttl).key = k := rfl

@[simp]
theorem mkEntry_value {V : Type} (k : String) (v : V) (now ttl : Nat) :
    (LRUCache.mkEntry k v now ttl).value = v := rfl

@[simp]
theorem mkEntry_expiresAt {V : Type} (k : String) (v : V) (now ttl : Nat) :
    (LRUCache.mkEntry k v now ttl).expiresAt = now + ttl := rfl

theorem set_append {V : Type} {s : LRUCacheState V} {k : String} {v : V}
    {now : Nat} (hen : s.config.enabled = true)
    (hlen : s.cache.length < s.config.maxSize)
    (hhas : mapHas s.cache k = false) :
    (LRUCache.set s k v now).cache =
      s.cache ++ [LRUCache.mkEntry k v now s.config.ttl] := by
  rw [LRUCache.set]
  simp only [hen, if_true]
  rw [if_neg (by omega :
    ¬ (s.cache.length ≥ s.config.maxSize ∧ mapHas s.cache k = false))]
  exact mapSet_of_not_has hhas

theorem get_hit {V : Type} {s : LRUCacheState V} {k : String} {now : Nat}
    {e : LRUCacheEntry V} (hen : s.config.enabled = true)
    (hf : mapFind s.cache k = some e) (hnx : ¬ now > e.expiresAt) :
    (LRUCache.get s k now).1 = some e.value ∧
    (LRUCache.get s k now).2.cache =
      mapDelete s.cache k ++
        [{ e with lastAccessed := now, accessCount := e.accessCount + 1 }] := by
  have hk : e.key = k := (mapFind_some hf).1
  have hnothas : mapHas (mapDelete s.cache k)
      ({ e with lastAccessed := now, accessCount := e.accessCount + 1 } :
        LRUCacheEntry V).key = false := by
    show mapHas (mapDelete s.cache k) e.key = false
    rw [hk]
    exact mapHas_mapDelete_self s.cache k
  rw [LRUCache.get]
  simp only [hen, if_true, hf, hnx, if_false]
  simp [mapSet_of_not_has hnothas]

/-- C7: persistence round-trip.  On an enabled cache with capacity at least
two, `set(k1,v1); set(k2,v2); saveToDisk()` followed by constructing a fresh
store on the same snapshot yields `get(k1) = v1` and then `get(k2) = v2`,
provided the load and the gets happen before either entry's `expiresAt`. -/
theorem persistence_round_trip {V : Type} (cfg : LRUCacheConfig)
    (ps0 : PersistState V) (k1 k2 : String) (v1 v2 : V) (t1 t2 t3 t4 t5 : Nat)
    (hen : cfg.enabled = true) (hmax : 2 ≤ cfg.maxSize) (hne : k1 ≠ k2)
    (h3a : t3 ≤ t1 + cfg.ttl) (h3b : t3 ≤ t2 + cfg.ttl)
    (h4 : t4 ≤ t1 + cfg.ttl) (h5 : t5 ≤ t2 + cfg.ttl) :
    (CacheSys.get (CacheSys.initPersistent cfg
        ((CacheSys.saveToDisk (CacheSys.set (CacheSys.set
          (⟨LRUCache.initState cfg, some ps0⟩ : CacheSys V) k1 v1 t1)
          k2 v2 t2)).persist.getD ⟨none, [], false⟩) t3) k1 t4).1 = some v1 ∧
    (CacheSys.get (CacheSys.get (CacheSys.initPersistent cfg
        ((CacheSys.saveToDisk (CacheSys.set (CacheSys.set
          (⟨LRUCache.initState cfg, some ps0⟩ : CacheSys V) k1 v1 t1)
          k2 v2 t2)).persist.getD ⟨none, [], false⟩) t3) k1 t4).2 k2 t5).1
      = some v2 := by
  have hx1 : ¬ t3 > t1 + cfg.ttl := by omega
  have hx2 : ¬ t3 > t2 + cfg.ttl := by omega
  have hx4 : ¬ t4 > t1 + cfg.ttl := by omega
  have hx5 : ¬ t5 > t2 + cfg.ttl := by omega
  have hne2 : k2 ≠ k1 := Ne.symm hne
  have hcfg1 : (LRUCache.set (LRUCache.initState (V := V) cfg) k1 v1 t1).config
      = cfg := set_config _ _ _ _
  have h1 : (LRUCache.set (LRUCache.initState (V := V) cfg) k1 v1 t1).cache
      = [LRUCache.mkEntry k1 v1 t1 cfg.ttl] := by
    rw [set_append (s := LRUCache.initState (V := V) cfg) hen
      (by simp [LRUCache.initState]; omega) rfl]
    simp [LRUCache.initState]
  have hlen1 : (LRUCache.set (LRUCache.initState (V := V) cfg)
      k1 v1 t1).cache.length <
      (LRUCache.set (LRUCache.initState (V := V) cfg) k1 v1 t1).config.maxSize := by
    rw [h1, hcfg1]
    simpa using by omega
  have hhas1 : mapHas (LRUCache.set (LRUCache.initState (V := V) cfg)
      k1 v1 t1).cache k2 = false := by
    rw [h1]
    simp [mapHas, mapFind, hne]
  have h2 : (LRUCache.set (LRUCache.set (LRUCache.initState (V := V) cfg)
      k1 v1 t1) k2 v2 t2).cache =
      [LRUCache.mkEntry k1 v1 t1 cfg.ttl, LRUCache.mkEntry k2 v2 t2 cfg.ttl] := by
    rw [set_append (s := LRUCache.set (LRUCache.initState (V := V) cfg) k1 v1 t1)
      (by rw [hcfg1]; exact hen) hlen1 hhas1, h1, hcfg1]
    rfl
  have hs2 : (CacheSys.set (CacheSys.set
      (⟨LRUCache.initState cfg, some ps0⟩ : CacheSys V) k1 v1 t1)
      k2 v2 t2).core =
      LRUCache.set (LRUCache.set (LRUCache.initState cfg) k1 v1 t1) k2 v2 t2 :=
    rfl
  have hp : (CacheSys.saveToDisk (CacheSys.set (CacheSys.set
      (⟨LRUCache.initState cfg, some ps0⟩ : CacheSys V) k1 v1 t1)
      k2 v2 t2)).persist =
      some ⟨some [LRUCache.mkEntry k1 v1 t1 cfg.ttl,
        LRUCache.mkEntry k2 v2 t2 cfg.ttl], [], false⟩ := by
    rw [CacheSys.saveToDisk]
    simp only [CacheSys.set, Option.map_some']
    simp only [PersistentCache.flush, PersistentCache.execSaveAll,
      PersistentCache.flushPendingWrites]
    simp [h2]
  rw [hp]
  have hfresh : (CacheSys.initPersistent cfg
      (⟨some [LRUCache.mkEntry k1 v1 t1 cfg.ttl,
        LRUCache.mkEntry k2 v2 t2 cfg.ttl], [], false⟩ : PersistState V)
      t3).core.cache =
      [LRUCache.mkEntry k1 v1 t1 cfg.ttl, LRUCache.mkEntry k2 v2 t2 cfg.ttl] := by
    rw [CacheSys.initPersistent]
    simp only [PersistentCache.loadAllDisk, Option.getD_some, List.foldl_cons,
      List.foldl_nil, mkEntry_expiresAt, hx1, hx2, if_false]
    simp [LRUCache.initState, mapSet, mapHas, mapFind, hne, hne2]
  have hfreshcfg : (CacheSys.initPersistent cfg
      (⟨some [LRUCache.mkEntry k1 v1 t1 cfg.ttl,
        LRUCache.mkEntry k2 v2 t2 cfg.ttl], [], false⟩ : PersistState V)
      t3).core.config = cfg := by
    rw [CacheSys.initPersistent]
    simp only [PersistentCache.loadAllDisk, Option.getD_some, List.foldl_cons,
      List.foldl_nil, mkEntry_expiresAt, hx1, hx2, if_false]
    simp [LRUCache.initState]
  have hfind1 : mapFind (CacheSys.initPersistent cfg
      (⟨some [LRUCache.mkEntry k1 v1 t1 cfg.ttl,
        LRUCache.mkEntry k2 v2 t2 cfg.ttl], [], false⟩ : PersistState V)
      t3).core.cache k1 = some (LRUCache.mkEntry k1 v1 t1 cfg.ttl) := by
    rw [hfresh]
    simp [mapFind]
  have hget1 := get_hit (by rw [hfreshcfg]; exact hen) hfind1
    (show ¬ t4 > t1 + cfg.ttl from hx4)
  refine ⟨hget1.1, ?_⟩
  have hcache3 : (LRUCache.get (CacheSys.initPersistent cfg
      (⟨some [LRUCache.mkEntry k1 v1 t1 cfg.ttl,
        LRUCache.mkEntry k2 v2 t2 cfg.ttl], [], false⟩ : PersistState V)
      t3).core k1 t4).2.cache =
      [LRUCache.mkEntry k2 v2 t2 cfg.ttl,
        { LRUCache.mkEntry k1 v1 t1 cfg.ttl with
          lastAccessed := t4, accessCount := 1 }] := by
    rw [hget1.2, hfresh]
    simp [mapDelete, List.filter, hne2, LRUCache.mkEntry]
  have hfind2 : mapFind (LRUCache.get (CacheSys.initPersistent cfg
      (⟨some [LRUCache.mkEntry k1 v1 t1 cfg.ttl,
        LRUCache.mkEntry k2 v2 t2 cfg.ttl], [], false⟩ : PersistState V)
      t3).core k1 t4).2.cache k2 = some (LRUCache.mkEntry k2 v2 t2 cfg.ttl) := by
    rw [hcache3]
    simp [mapFind]
  have hcfg3 : (LRUCache.get (CacheSys.initPersistent cfg
      (⟨some [LRUCache.mkEntry k1 v1 t1 cfg.ttl,
        LRUCache.mkEntry k2 v2 t2 cfg.ttl], [], false⟩ : PersistState V)
      t3).core k1 t4).2.config = cfg := by
    rw [get_config, hfreshcfg]
  have hget2 := get_hit (by rw [hcfg3]; exact hen) hfind2
    (show ¬ t5 > t2 + cfg.ttl from hx5)
  exact hget2.1

/-- Witness for C7 at a concrete configuration, keys, values and times. -/
theorem persistence_round_trip_witness :
    (CacheSys.get (CacheSys.initPersistent ⟨true, 10, 1000⟩
        ((CacheSys.saveToDisk (CacheSys.set (CacheSys.set
          (⟨LRUCache.initState ⟨true, 10, 1000⟩, some ⟨none, [], false⟩⟩ :
            CacheSys Nat) "a" 1 0)
          "b" 2 1)).persist.getD ⟨none, [], false⟩) 2) "a" 3).1 = some 1 ∧
    (CacheSys.get (CacheSys.get (CacheSys.initPersistent ⟨true, 10, 1000⟩
        ((CacheSys.saveToDisk (CacheSys.set (CacheSys.set
          (⟨LRUCache.initState ⟨true, 10, 1000⟩, some ⟨none, [], false⟩⟩ :
            CacheSys Nat) "a" 1 0)
          "b" 2 1)).persist.getD ⟨none, [], false⟩) 2) "a" 3).2 "b" 4).1
      = some 2 :=
  persistence_round_trip ⟨true, 10, 1000⟩ ⟨none, [], false⟩ "a" "b" 1 2
    0 1 2 3 4 rfl (by decide) (by decide) (by decide) (by decide) (by decide)
    (by decide)

/-! ### Membership lemmas for `set`, `get` and `evictLRU` -/

theorem mapSet_mem_cases {V : Type} {c : List (LRUCacheEntry V)}
    {e x : LRUCacheEntry V} (hx : x ∈ mapSet c e) :
    x = e ∨ (x ∈ c ∧ x.key ≠ e.key) := by
  rw [mapSet] at hx
  by_cases hh : mapHas c e.key = true
  · rw [if_pos hh] at hx
    rcases List.mem_map.mp hx with ⟨y, hy, hxy⟩
    by_cases hk : y.key = e.key
    · rw [if_pos hk] at hxy
      exact Or.inl hxy.symm
    · rw [if_neg hk] at hxy
      exact Or.inr ⟨hxy ▸ hy, hxy ▸ hk⟩
  · rw [if_neg hh] at hx
    rcases List.mem_append.mp hx with h | h
    · refine Or.inr ⟨h, ?_⟩
      have := mapHas_false_iff.mp (by simpa using hh)
      exact this x h
    · exact Or.inl (List.mem_singleton.mp h)

theorem evictLRU_cache_subset {V : Type} {s : LRUCacheState V}
    {x : LRUCacheEntry V} (hx : x ∈ (LRUCache.evictLRU s).cache) :
    x ∈ s.cache := by
  rw [LRUCache.evictLRU] at hx
  split at hx
  · exact hx
  · split at hx
    · exact hx
    · exact List.mem_of_mem_filter hx

theorem set_cache_mem {V : Type} {s : LRUCacheState V} {k : String} {v : V}
    {now : Nat} {x : LRUCacheEntry V} (hen : s.config.enabled = true)
    (hx : x ∈ (LRUCache.set s k v now).cache) :
    x = LRUCache.mkEntry k v now s.config.ttl ∨ (x ∈ s.cache ∧ x.key ≠ k) := by
  rw [LRUCache.set] at hx
  simp only [hen, if_true] at hx
  by_cases hc : s.cache.length ≥ s.config.maxSize ∧ mapHas s.cache k = false
  · rw [if_pos hc] at hx
    rcases mapSet_mem_cases hx with h | ⟨h1, h2⟩
    · exact Or.inl h
    · exact Or.inr ⟨evictLRU_cache_subset h1, by simpa using h2⟩
  · rw [if_neg hc] at hx
    rcases mapSet_mem_cases hx with h | ⟨h1, h2⟩
    · exact Or.inl h
    · exact Or.inr ⟨h1, by simpa using h2⟩

theorem get_cache_mem {V : Type} {s : LRUCacheState V} {k : String} {now : Nat}
    {x : LRUCacheEntry V} (hx : x ∈ (LRUCache.get s k now).2.cache) :
    x ∈ s.cache ∨ ∃ e, mapFind s.cache k = some e ∧
      x = { e with lastAccessed := now, accessCount := e.accessCount + 1 } := by
  rw [LRUCache.get] at hx
  by_cases hen : s.config.enabled = true
  · simp only [hen, if_true] at hx
    rcases hf : mapFind s.cache k with _ | e
    · rw [hf] at hx
      simp only [updateStats_cache] at hx
      exact Or.inl hx
    · rw [hf] at hx
      by_cases hexp : now > e.expiresAt
      · simp only [hexp, if_true, updateStats_cache] at hx
        exact Or.inl (List.mem_of_mem_filter hx)
      · simp only [hexp, if_false, updateStats_cache] at hx
        rcases mapSet_mem_cases hx with h | ⟨h1, _⟩
        · exact Or.inr ⟨e, rfl, h⟩
        · exact Or.inl (List.mem_of_mem_filter h1)
  · simp only [hen] at hx
    simp only [Bool.false_eq_true, if_false] at hx
    exact Or.inl hx

/-- One step preserves the write-time-anchoring invariant: every resident
entry's `timestamp` is the time of its most recent `set` (tracked by the
ghost `lastSet`) and its `expiresAt` is that time plus the configured TTL. -/
theorem applyOpW_inv {V : Type} {cfg : LRUCacheConfig} {g : SetTimeState V}
    (hcfg : g.st.config = cfg)
    (hinv : ∀ e ∈ g.st.cache, g.lastSet e.key = some e.timestamp ∧
      e.expiresAt = e.timestamp + cfg.ttl) (op : CacheOp V) :
    (applyOpW g op).st.config = cfg ∧
    ∀ e ∈ (applyOpW g op).st.cache,
      (applyOpW g op).lastSet e.key = some e.timestamp ∧
      e.expiresAt = e.timestamp + cfg.ttl := by
  cases op with
  | setOp k v t =>
    refine ⟨by simp [applyOpW, set_config, hcfg], ?_⟩
    intro e he
    simp only [applyOpW] at he ⊢
    by_cases hen : g.st.config.enabled = true
    · rcases set_cache_mem hen he with h | ⟨h1, h2⟩
      · subst h
        simp only [hen, if_true, mkEntry_key, mkEntry_expiresAt]
        constructor
        · simp [hcfg, hen, LRUCache.mkEntry]
        · simp [LRUCache.mkEntry, hcfg]
      · rcases hinv e h1 with ⟨ha, hb⟩
        refine ⟨?_, hb⟩
        simp only [hen, if_true]
        simp [h2, ha]
    · have hset : LRUCache.set g.st k v t = g.st := by
        rw [LRUCache.set]
        simp [hen]
      rw [hset] at he
      rcases hinv e he with ⟨ha, hb⟩
      refine ⟨?_, hb⟩
      simp [hen, ha]
  | getOp k t =>
    refine ⟨by simp [applyOpW, get_config, hcfg], ?_⟩
    intro e he
    simp only [applyOpW] at he ⊢
    rcases get_cache_mem he with h | ⟨e0, hf, hx⟩
    · exact hinv e h
    · rcases hinv e0 (mapFind_some hf).2 with ⟨ha, hb⟩
      subst hx
      exact ⟨ha, hb⟩

theorem runW_inv {V : Type} (cfg : LRUCacheConfig) (ops : List (CacheOp V)) :
    (runW (initW cfg) ops).st.config = cfg ∧
    ∀ e ∈ (runW (initW cfg) ops).st.cache,
      (runW (initW cfg) ops).lastSet e.key = some e.timestamp ∧
      e.expiresAt = e.timestamp + cfg.ttl := by
  suffices h : ∀ (g : SetTimeState V), g.st.config = cfg →
      (∀ e ∈ g.st.cache, g.lastSet e.key = some e.timestamp ∧
        e.expiresAt = e.timestamp + cfg.ttl) →
      (runW g ops).st.config = cfg ∧
      ∀ e ∈ (runW g ops).st.cache,
        (runW g ops).lastSet e.key = some e.timestamp ∧
        e.expiresAt = e.timestamp + cfg.ttl by
    exact h (initW cfg) rfl (by intro e he; cases he)
  induction ops with
  | nil => intro g h1 h2; exact ⟨h1, h2⟩
  | cons op ops ih =>
    intro g h1 h2
    have hstep := applyOpW_inv h1 h2 op
    exact ih (applyOpW g op) hstep.1 hstep.2

theorem mapFind_append_of_none {V : Type} {c1 : List (LRUCacheEntry V)}
    (c2 : List (LRUCacheEntry V)) {k : String} (h : mapFind c1 k = none) :
    mapFind (c1 ++ c2) k = mapFind c2 k := by
  induction c1 with
  | nil => rfl
  | cons x c1 ih =>
    by_cases hx : x.key = k
    · rw [mapFind, if_pos hx] at h
      cases h
    · rw [mapFind, if_neg hx] at h
      rw [List.cons_append, mapFind, if_neg hx]
      exact ih h

/-- C8: TTL is write-time-anchored, not sliding.  In every run of `set`/`get`
operations from a fresh cache, each resident entry's `expiresAt` equals the
time of that entry's most recent `set` (the ghost `lastSet`, which also
equals the entry's `timestamp`) plus the configured `ttl`; and a `get` hit
leaves the entry in place (at the most-recently-used position) with only
`lastAccessed` and `accessCount` changed — `expiresAt`, `timestamp` and
`value` are untouched. -/
theorem ttl_write_anchored {V : Type} (cfg : LRUCacheConfig)
    (ops : List (CacheOp V)) :
    (∀ e ∈ (runW (initW cfg) ops).st.cache,
      (runW (initW cfg) ops).lastSet e.key = some e.timestamp ∧
      e.expiresAt = e.timestamp + cfg.ttl) ∧
    (∀ (s : LRUCacheState V) (k : String) (now : Nat) (e : LRUCacheEntry V),
      s.config.enabled = true → mapFind s.cache k = some e →
      ¬ now > e.expiresAt →
      mapFind (LRUCache.get s k now).2.cache k =
        some { e with lastAccessed := now, accessCount := e.accessCount + 1 }) := by
  refine ⟨(runW_inv cfg ops).2, ?_⟩
  intro s k now e hen hf hnx
  have h2 := (get_hit hen hf hnx).2
  rw [h2]
  rw [mapFind_append_of_none _ (mapFind_mapDelete_self s.cache k)]
  rw [mapFind]
  simp [(mapFind_some hf).1]

/-- Witness for C8: after `set "a" 5` at time 10 with TTL 1000, the ghost
last-set time is 10, `expiresAt` is 1010, and a hit at time 20 leaves the
entry with the same `expiresAt` and `timestamp`, only `lastAccessed` and
`accessCount` updated. -/
theorem ttl_write_anchored_witness :
    (runW (initW (V := Nat) ⟨true, 10, 1000⟩)
      [CacheOp.setOp "a" 5 10]).lastSet "a" = some 10 ∧
    (LRUCache.mkEntry "a" (5 : Nat) 10 1000).expiresAt = 10 + 1000 ∧
    mapFind (LRUCache.get (runW (initW (V := Nat) ⟨true, 10, 1000⟩)
        [CacheOp.setOp "a" 5 10]).st "a" 20).2.cache "a" =
      some { LRUCache.mkEntry "a" (5 : Nat) 10 1000 with
        lastAccessed := 20, accessCount := 1 } := by
  have h := ttl_write_anchored (V := Nat) ⟨true, 10, 1000⟩ [CacheOp.setOp "a" 5 10]
  refine ⟨?_, ?_, ?_⟩
  · exact (h.1 (LRUCache.mkEntry "a" 5 10 1000) (by decide)).1
  · exact (h.1 (LRUCache.mkEntry "a" 5 10 1000) (by decide)).2
  · exact h.2 (runW (initW ⟨true, 10, 1000⟩) [CacheOp.setOp "a" 5 10]).st "a" 20
      (LRUCache.mkEntry "a" 5 10 1000) (by decide) (by decide) (by decide)


/-! ### Running-total invariant: `totalAccessCount` tracks the table sum
on overwrite-free runs -/

def keysNodup {V : Type} (c : List (LRUCacheEntry V)) : Prop :=
  c.Pairwise (fun a b => a.key ≠ b.key)

theorem accessSum_cons {V : Type} (e : LRUCacheEntry V)
    (c : List (LRUCacheEntry V)) :
    accessSum (e :: c) = e.accessCount + accessSum c := by
  simp [accessSum]

theorem accessSum_append {V : Type} (c : List (LRUCacheEntry V))
    (e : LRUCacheEntry V) :
    accessSum (c ++ [e]) = accessSum c + e.accessCount := by
  simp [accessSum]

theorem mapDelete_cons {V : Type} (e0 : LRUCacheEntry V)
    (tl : List (LRUCacheEntry V)) (k : String) :
    mapDelete (e0 :: tl) k =
      if e0.key = k then mapDelete tl k else e0 :: mapDelete tl k := by
  rw [mapDelete, List.filter_cons]
  by_cases h : e0.key = k
  · simp [h, mapDelete]
  · simp [h, mapDelete]

theorem mapDelete_cons_head {V : Type} {e0 : LRUCacheEntry V}
    {tl : List (LRUCacheEntry V)} (hnd : keysNodup (e0 :: tl)) :
    mapDelete (e0 :: tl) e0.key = tl := by
  have h1 : ∀ x ∈ tl, x.key ≠ e0.key := by
    intro x hx
    exact ((List.pairwise_cons.mp hnd).1 x hx).symm
  rw [mapDelete_cons, if_pos rfl]
  exact mapDelete_of_not_has h1

theorem accessSum_mapDelete {V : Type} {c : List (LRUCacheEntry V)}
    {k : String} {e : LRUCacheEntry V} (hnd : keysNodup c)
    (hf : mapFind c k = some e) :
    accessSum (mapDelete c k) = accessSum c - e.accessCount := by
  induction c with
  | nil => cases hf
  | cons x c ih =>
    rcases List.pairwise_cons.mp hnd with ⟨hhead, htail⟩
    by_cases hx : x.key = k
    · rw [mapFind, if_pos hx] at hf
      obtain rfl : x = e := by injection hf
      have hdel : mapDelete (x :: c) k = c := by
        rw [← hx]
        exact mapDelete_cons_head hnd
      rw [hdel, accessSum_cons]
      omega
    · rw [mapFind, if_neg hx] at hf
      rw [mapDelete_cons, if_neg hx, accessSum_cons, accessSum_cons,
        ih htail hf]
      omega

theorem keysNodup_mapDelete {V : Type} {c : List (LRUCacheEntry V)}
    (k : String) (hnd : keysNodup c) : keysNodup (mapDelete c k) :=
  hnd.sublist (mapDelete_sublist c k)

theorem keysNodup_append_not_has {V : Type} {c : List (LRUCacheEntry V)}
    {e : LRUCacheEntry V} (hnd : keysNodup c) (h : mapHas c e.key = false) :
    keysNodup (c ++ [e]) := by
  rw [keysNodup, List.pairwise_append]
  refine ⟨hnd, List.pairwise_singleton _ _, ?_⟩
  intro a ha b hb
  rw [List.mem_singleton] at hb
  subst hb
  exact mapHas_false_iff.mp h a ha

def TInv {V : Type} (s : LRUCacheState V) : Prop :=
  keysNodup s.cache ∧ s.totalAccessCount = accessSum s.cache

theorem TInv_get {V : Type} {s : LRUCacheState V} (k : String) (now : Nat)
    (h : TInv s) : TInv (LRUCache.get s k now).2 := by
  rcases h with ⟨hnd, htot⟩
  rw [LRUCache.get]
  by_cases hen : s.config.enabled = true
  · simp only [hen, if_true]
    rcases hf : mapFind s.cache k with _ | e
    · exact ⟨by simpa using hnd, by simpa using htot⟩
    · by_cases hexp : now > e.expiresAt
      · simp only [hexp, if_true]
        refine ⟨by simpa using keysNodup_mapDelete k hnd, ?_⟩
        simp only [updateStats_cache, updateStats_totalAccessCount]
        rw [accessSum_mapDelete hnd hf, htot]
      · simp only [hexp, if_false]
        have hkey : e.key = k := (mapFind_some hf).1
        have hnothas : mapHas (mapDelete s.cache k)
            ({ e with lastAccessed := now, accessCount := e.accessCount + 1 } :
              LRUCacheEntry V).key = false := by
          show mapHas (mapDelete s.cache k) e.key = false
          rw [hkey]
          exact mapHas_mapDelete_self s.cache k
        constructor
        · simp only [updateStats_cache]
          rw [mapSet_of_not_has hnothas]
          exact keysNodup_append_not_has (keysNodup_mapDelete k hnd) hnothas
        · simp only [updateStats_cache, updateStats_totalAccessCount]
          rw [mapSet_of_not_has hnothas, accessSum_append,
            accessSum_mapDelete hnd hf, htot]
          simp only
          omega
  · simp only [hen]
    simp only [Bool.false_eq_true, if_false]
    exact ⟨hnd, htot⟩

theorem TInv_evictLRU {V : Type} {s : LRUCacheState V} (h : TInv s) :
    TInv (LRUCache.evictLRU s) := by
  rcases h with ⟨hnd, htot⟩
  rw [LRUCache.evictLRU]
  split
  · exact ⟨hnd, htot⟩
  · rename_i e0 tl hc
    split
    · exact ⟨hnd, htot⟩
    · rename_i hk
      have hnd2 : keysNodup (e0 :: tl) := hc ▸ hnd
      constructor
      · show keysNodup (mapDelete s.cache e0.key)
        rw [hc, mapDelete_cons_head hnd2]
        exact (List.pairwise_cons.mp hnd2).2
      · show s.totalAccessCount - e0.accessCount =
          accessSum (mapDelete s.cache e0.key)
        rw [hc, mapDelete_cons_head hnd2, htot, hc, accessSum_cons]
        omega

theorem evictLRU_not_has {V : Type} {s : LRUCacheState V} {k : String}
    (h : mapHas s.cache k = false) :
    mapHas (LRUCache.evictLRU s).cache k = false := by
  rw [mapHas_false_iff] at h ⊢
  intro e he
  exact h e (evictLRU_cache_subset he)

theorem TInv_set {V : Type} {s : LRUCacheState V} {k : String} {v : V}
    {now : Nat} (h : TInv s)
    (hno : s.config.enabled = true → mapHas s.cache k = false) :
    TInv (LRUCache.set s k v now) := by
  rw [LRUCache.set]
  by_cases hen : s.config.enabled = true
  · simp only [hen, if_true]
    have hhas := hno hen
    set s1 := if s.cache.length ≥ s.config.maxSize ∧ mapHas s.cache k = false
      then LRUCache.evictLRU s else s with hs1
    have h1 : TInv s1 := by
      rw [hs1]
      by_cases hc : s.cache.length ≥ s.config.maxSize ∧ mapHas s.cache k = false
      · rw [if_pos hc]
        exact TInv_evictLRU h
      · rw [if_neg hc]
        exact h
    have hhas1 : mapHas s1.cache k = false := by
      rw [hs1]
      by_cases hc : s.cache.length ≥ s.config.maxSize ∧ mapHas s.cache k = false
      · rw [if_pos hc]
        exact evictLRU_not_has hhas
      · rw [if_neg hc]
        exact hhas
    rcases h1 with ⟨hnd1, htot1⟩
    constructor
    · show keysNodup (mapSet s1.cache (LRUCache.mkEntry k v now s.config.ttl))
      rw [mapSet_of_not_has (by simpa using hhas1)]
      exact keysNodup_append_not_has hnd1 (by simpa using hhas1)
    · show s1.totalAccessCount =
        accessSum (mapSet s1.cache (LRUCache.mkEntry k v now s.config.ttl))
      rw [mapSet_of_not_has (by simpa using hhas1), accessSum_append, htot1]
      simp [LRUCache.mkEntry]
  · simp only [hen]
    simp only [Bool.false_eq_true, if_false]
    exact h

theorem TInv_run {V : Type} (ops : List (CacheOp V)) :
    ∀ (s : LRUCacheState V), TInv s → noOverwriteRun s ops = true →
      TInv (runOps s ops) := by
  induction ops with
  | nil => intro s h _; exact h
  | cons op ops ih =>
    intro s h hno
    simp only [noOverwriteRun] at hno
    rcases Bool.and_eq_true_iff.mp hno with ⟨hop, hrest⟩
    have hstep : TInv (applyOp s op) := by
      cases op with
      | setOp k v t =>
        refine TInv_set h ?_
        intro hen
        simp only [hen, Bool.not_eq_true', Bool.and_eq_false_iff] at hop
        rcases hop with h1 | h1
        · simp at h1
        · exact h1
      | getOp k t => exact TInv_get k t h
    exact ih (applyOp s op) hstep hrest



theorem get_avg {V : Type} (s : LRUCacheState V) (k : String) (now : Nat)
    (hen : s.config.enabled = true) :
    (LRUCache.get s k now).2.stats.averageAccessCount =
      if 0 < (LRUCache.get s k now).2.cache.length then
        ((LRUCache.get s k now).2.totalAccessCount : Rat) /
          ((LRUCache.get s k now).2.cache.length : Rat)
      else 0 := by
  rw [LRUCache.get]
  simp only [hen, if_true]
  rcases hf : mapFind s.cache k with _ | e
  · rfl
  · by_cases hexp : now > e.expiresAt
    · simp only [hexp, if_true]
      rfl
    · simp only [hexp, if_false]
      rfl

theorem set_initState_cache {V : Type} (cfg : LRUCacheConfig) (k : String)
    (v : V) (t : Nat) (hen : cfg.enabled = true) :
    (LRUCache.set (LRUCache.initState (V := V) cfg) k v t).cache =
      [LRUCache.mkEntry k v t cfg.ttl] := by
  rw [LRUCache.set]
  simp only [show (LRUCache.initState (V := V) cfg).config = cfg from rfl, hen,
    if_true]
  have hev : LRUCache.evictLRU (LRUCache.initState (V := V) cfg) =
      LRUCache.initState cfg := rfl
  by_cases hc : (LRUCache.initState (V := V) cfg).cache.length ≥ cfg.maxSize ∧
      mapHas (LRUCache.initState (V := V) cfg).cache k = false
  · rw [if_pos hc, hev]
    rfl
  · rw [if_neg hc]
    rfl

theorem replicate_get_singleton {V : Type} (cfg : LRUCacheConfig) (k : String)
    (t' : Nat) (hen : cfg.enabled = true) :
    ∀ (n : Nat) (s : LRUCacheState V) (e : LRUCacheEntry V),
      s.config = cfg → s.cache = [e] → e.key = k → ¬ t' > e.expiresAt →
      (runOps s (List.replicate n (CacheOp.getOp k t'))).cache =
        [{ e with
            lastAccessed := (if n = 0 then e.lastAccessed else t'),
            accessCount := e.accessCount + n }] := by
  intro n
  induction n with
  | zero =>
    intro s e hcfg hc hk hx
    simp only [List.replicate, runOps, List.foldl_nil]
    rw [hc]
    rfl
  | succ m ih =>
    intro s e hcfg hc hk hx
    have hen2 : s.config.enabled = true := by rw [hcfg]; exact hen
    have hf : mapFind s.cache k = some e := by
      rw [hc, mapFind, if_pos hk]
    have hstep : (applyOp s (CacheOp.getOp k t')).cache =
        [{ e with lastAccessed := t', accessCount := e.accessCount + 1 }] := by
      show (LRUCache.get s k t').2.cache = _
      rw [(get_hit hen2 hf hx).2, hc]
      rw [mapDelete_cons, if_pos hk]
      rfl
    have hrw : runOps s (List.replicate (m + 1) (CacheOp.getOp k t')) =
        runOps (applyOp s (CacheOp.getOp k t'))
          (List.replicate m (CacheOp.getOp k t')) := by
      rw [List.replicate_succ]
      rfl
    rw [hrw]
    rw [ih (applyOp s (CacheOp.getOp k t'))
      ({ e with lastAccessed := t', accessCount := e.accessCount + 1 })
      (by show (LRUCache.get s k t').2.config = cfg; rw [get_config, hcfg])
      hstep hk hx]
    cases m with
    | zero => simp
    | succ m2 =>
      simp only [Nat.succ_ne_zero, if_false, List.cons.injEq, and_true]
      congr 1
      omega

/-- C2 (amended): on runs in which no `set` overwrites a resident key,
the running total `totalAccessCount` equals the sum of all resident
entries' `accessCount` at every reachable state; `averageAccessCount` as
recomputed by the `updateStats` at the end of any `get` equals that sum
divided by the table size (0 when empty); and a freshly-`set` key read via
`get` exactly `n` times within its TTL has `accessCount = n`.  (As the
counterexample shows, the unrestricted claim fails: `set` on a resident key
drops that entry's count from neither the running total nor calls
`updateStats`, so the stored average can be stale after a `set`.) -/
theorem runningTotal_without_overwrite {V : Type} (cfg : LRUCacheConfig)
    (ops : List (CacheOp V)) (hen : cfg.enabled = true)
    (hno : noOverwriteRun (LRUCache.initState cfg) ops = true) :
    ((runOps (LRUCache.initState (V := V) cfg) ops).totalAccessCount =
      accessSum (runOps (LRUCache.initState (V := V) cfg) ops).cache) ∧
    (∀ (k : String) (t : Nat),
      (LRUCache.get (runOps (LRUCache.initState (V := V) cfg) ops) k
          t).2.stats.averageAccessCount =
        if 0 < (LRUCache.get (runOps (LRUCache.initState (V := V) cfg) ops) k
            t).2.cache.length then
          (accessSum (LRUCache.get (runOps (LRUCache.initState (V := V) cfg)
              ops) k t).2.cache : Rat) /
            ((LRUCache.get (runOps (LRUCache.initState (V := V) cfg) ops) k
              t).2.cache.length : Rat)
        else 0) ∧
    (∀ (k : String) (v : V) (t n t' : Nat), t ≤ t' → t' ≤ t + cfg.ttl →
      (runOps (LRUCache.initState (V := V) cfg)
        (CacheOp.setOp k v t :: List.replicate n (CacheOp.getOp k t'))).cache =
        [{ LRUCache.mkEntry k v t cfg.ttl with
            lastAccessed := (if n = 0 then t else t'),
            accessCount := n }]) := by
  have hinv0 : TInv (LRUCache.initState (V := V) cfg) :=
    ⟨List.Pairwise.nil, rfl⟩
  have hrun := TInv_run ops (LRUCache.initState cfg) hinv0 hno
  refine ⟨hrun.2, ?_, ?_⟩
  · intro k t
    have hrun2 := TInv_get k t hrun
    have henr : (runOps (LRUCache.initState (V := V) cfg) ops).config.enabled
        = true := by
      rw [runOps_config]
      exact hen
    rw [get_avg _ _ _ henr, hrun2.2]
  · intro k v t n t' ht ht'
    have hrw : runOps (LRUCache.initState (V := V) cfg)
        (CacheOp.setOp k v t :: List.replicate n (CacheOp.getOp k t')) =
        runOps (applyOp (LRUCache.initState cfg) (CacheOp.setOp k v t))
          (List.replicate n (CacheOp.getOp k t')) := rfl
    rw [hrw]
    rw [replicate_get_singleton cfg k t' hen n
      (applyOp (LRUCache.initState cfg) (CacheOp.setOp k v t))
      (LRUCache.mkEntry k v t cfg.ttl)
      (by show (LRUCache.set _ k v t).config = cfg; rw [set_config]; rfl)
      (set_initState_cache cfg k v t hen) (mkEntry_key k v t cfg.ttl)
      (by simp only [mkEntry_expiresAt]; omega)]
    cases n with
    | zero => rfl
    | succ m => simp [LRUCache.mkEntry]

/-- Witness for the amended C2 at a concrete no-overwrite run. -/
theorem runningTotal_without_overwrite_witness :
    ((runOps (LRUCache.initState (V := Nat) ⟨true, 10, 1000⟩)
        [CacheOp.setOp "a" 1 0, CacheOp.getOp "a" 1]).totalAccessCount =
      accessSum (runOps (LRUCache.initState (V := Nat) ⟨true, 10, 1000⟩)
        [CacheOp.setOp "a" 1 0, CacheOp.getOp "a" 1]).cache) ∧
    ((LRUCache.get (runOps (LRUCache.initState (V := Nat) ⟨true, 10, 1000⟩)
        [CacheOp.setOp "a" 1 0, CacheOp.getOp "a" 1]) "b"
        2).2.stats.averageAccessCount =
      if 0 < (LRUCache.get (runOps (LRUCache.initState (V := Nat)
          ⟨true, 10, 1000⟩) [CacheOp.setOp "a" 1 0, CacheOp.getOp "a" 1]) "b"
          2).2.cache.length then
        (accessSum (LRUCache.get (runOps (LRUCache.initState (V := Nat)
            ⟨true, 10, 1000⟩) [CacheOp.setOp "a" 1 0, CacheOp.getOp "a" 1])
            "b" 2).2.cache : Rat) /
          ((LRUCache.get (runOps (LRUCache.initState (V := Nat)
            ⟨true, 10, 1000⟩) [CacheOp.setOp "a" 1 0, CacheOp.getOp "a" 1])
            "b" 2).2.cache.length : Rat)
      else 0) ∧
    ((runOps (LRUCache.initState (V := Nat) ⟨true, 10, 1000⟩)
        (CacheOp.setOp "a" 7 0 :: List.replicate 3 (CacheOp.getOp "a" 1))).cache =
      [{ LRUCache.mkEntry "a" (7 : Nat) 0 1000 with
          lastAccessed := (if 3 = 0 then 0 else 1),
          accessCount := 3 }]) := by
  have h := runningTotal_without_overwrite (V := Nat) ⟨true, 10, 1000⟩
    [CacheOp.setOp "a" 1 0, CacheOp.getOp "a" 1] rfl (by decide)
  exact ⟨h.1, h.2.1 "b" 2, h.2.2 "a" 7 0 3 1 (by decide) (by decide)⟩


/-! ### Eviction-order development: cache shape lemmas and the
touch-sortedness invariant -/

theorem pairwise_touch_irrel {V : Type} {f f2 : String → Nat}
    {l : List (LRUCacheEntry V)} (hff : ∀ e ∈ l, f2 e.key = f e.key)
    (hp : l.Pairwise (fun a b => f a.key < f b.key)) :
    l.Pairwise (fun a b => f2 a.key < f2 b.key) :=
  List.Pairwise.imp_of_mem
    (fun ha hb hr => by rw [hff _ ha, hff _ hb]; exact hr) hp

theorem set_cache_of_has {V : Type} {s : LRUCacheState V} {k : String} {v : V}
    {t : Nat} (hen : s.config.enabled = true)
    (hhas : mapHas s.cache k = true) :
    (LRUCache.set s k v t).cache =
      s.cache.map (fun x =>
        if x.key = k then LRUCache.mkEntry k v t s.config.ttl else x) := by
  rw [LRUCache.set]
  simp only [hen, if_true]
  rw [if_neg (by simp [hhas])]
  show mapSet s.cache _ = _
  rw [mapSet, if_pos (by simpa using hhas)]
  simp only [mkEntry_key]

theorem set_currentSize {V : Type} (s : LRUCacheState V) (k : String) (v : V)
    (t : Nat) (hen : s.config.enabled = true) :
    (LRUCache.set s k v t).stats.currentSize =
      (LRUCache.set s k v t).cache.length := by
  rw [LRUCache.set]
  simp only [hen, if_true]

theorem get_currentSize {V : Type} (s : LRUCacheState V) (k : String)
    (now : Nat) :
    (LRUCache.get s k now).2.stats.currentSize = s.stats.currentSize := by
  rw [LRUCache.get]
  by_cases hen : s.config.enabled = true
  · simp only [hen, if_true]
    rcases mapFind s.cache k with _ | e
    · rfl
    · by_cases hexp : now > e.expiresAt
      · simp only [hexp, if_true]
        rfl
      · simp only [hexp, if_false]
        rfl
  · simp only [hen]
    simp only [Bool.false_eq_true, if_false]

theorem get_miss_cache {V : Type} {s : LRUCacheState V} {k : String}
    {now : Nat} (hen : s.config.enabled = true)
    (hf : mapFind s.cache k = none) :
    (LRUCache.get s k now).2.cache = s.cache := by
  rw [LRUCache.get]
  simp only [hen, if_true, hf]
  rfl

theorem get_expired_cache {V : Type} {s : LRUCacheState V} {k : String}
    {now : Nat} {e : LRUCacheEntry V} (hen : s.config.enabled = true)
    (hf : mapFind s.cache k = some e) (hexp : now > e.expiresAt) :
    (LRUCache.get s k now).2.cache = mapDelete s.cache k := by
  rw [LRUCache.get]
  simp only [hen, if_true, hf, hexp, if_true]
  rfl

theorem evictLRU_cons_cache {V : Type} {s : LRUCacheState V}
    {e0 : LRUCacheEntry V} {tl : List (LRUCacheEntry V)}
    (hc : s.cache = e0 :: tl) (hk0 : e0.key ≠ "") (hnd : keysNodup s.cache) :
    (LRUCache.evictLRU s).cache = tl := by
  rw [LRUCache.evictLRU]
  split
  · rename_i heq
    rw [hc] at heq
    cases heq
  · rename_i e0b tlb heq
    rw [hc] at heq
    injection heq with h1 h2
    subst h1
    split
    · rename_i hk
      exact absurd hk hk0
    · show mapDelete s.cache e0.key = tl
      rw [hc]
      exact mapDelete_cons_head (hc ▸ hnd)

theorem evictLRU_cons_not_has {V : Type} {s : LRUCacheState V} {k : String}
    (hhas : mapHas s.cache k = false) :
    mapHas (LRUCache.evictLRU s).cache k = false :=
  evictLRU_not_has hhas

theorem set_evict_append {V : Type} {s : LRUCacheState V} {k : String} {v : V}
    {t : Nat} {e0 : LRUCacheEntry V} {tl : List (LRUCacheEntry V)}
    (hen : s.config.enabled = true)
    (hcap : s.cache.length ≥ s.config.maxSize)
    (hhas : mapHas s.cache k = false) (hc : s.cache = e0 :: tl)
    (hk0 : e0.key ≠ "") (hnd : keysNodup s.cache) :
    (LRUCache.set s k v t).cache =
      tl ++ [LRUCache.mkEntry k v t s.config.ttl] := by
  rw [LRUCache.set]
  simp only [hen, if_true]
  rw [if_pos ⟨hcap, hhas⟩]
  show mapSet (LRUCache.evictLRU s).cache _ = _
  rw [evictLRU_cons_cache hc hk0 hnd]
  apply mapSet_of_not_has
  show mapHas tl k = false
  rw [mapHas_false_iff] at hhas ⊢
  intro e he
  exact hhas e (by rw [hc]; exact List.mem_cons_of_mem _ he)



/-- The invariant carried along instrumented runs for the eviction-order
claim: keys are unique and non-empty, the list order is strictly sorted by
last-touch step, all touches are in the past, and both the table and the
reported `currentSize` respect the capacity bound. -/
def CInv {V : Type} (cfg : LRUCacheConfig) (g : TouchState V) : Prop :=
  keysNodup g.st.cache ∧
  g.st.cache.Pairwise (fun a b => g.touch a.key < g.touch b.key) ∧
  (∀ e ∈ g.st.cache, g.touch e.key < g.step) ∧
  (∀ e ∈ g.st.cache, e.key ≠ "") ∧
  g.st.cache.length ≤ cfg.maxSize ∧
  g.st.stats.currentSize ≤ cfg.maxSize ∧
  g.st.config = cfg

theorem applyOpT_inv {V : Type} {cfg : LRUCacheConfig} {g : TouchState V}
    (hen : cfg.enabled = true) (hmax : 1 ≤ cfg.maxSize) {op : CacheOp V}
    (hkop : CacheOp.key op ≠ "") (hinv : CInv cfg g) :
    CInv cfg (applyOpT g op) := by
  obtain ⟨hnd, hsort, hlt, hne, hlen, hcs, hcfg⟩ := hinv
  have hen2 : g.st.config.enabled = true := by rw [hcfg]; exact hen
  cases op with
  | getOp k t =>
    rcases hf : mapFind g.st.cache k with _ | e
    · simp only [applyOpT, hf]
      have hcache : (LRUCache.get g.st k t).2.cache = g.st.cache :=
        get_miss_cache hen2 hf
      refine ⟨by rw [hcache]; exact hnd, by rw [hcache]; exact hsort,
        ?_, by rw [hcache]; exact hne, by rw [hcache]; exact hlen,
        ?_, by rw [get_config]; exact hcfg⟩
      · rw [hcache]
        intro e2 he2
        exact Nat.lt_succ_of_lt (hlt e2 he2)
      · rw [get_currentSize]
        exact hcs
    · by_cases hexp : t > e.expiresAt
      · simp only [applyOpT, hf]
        rw [if_neg (by intro hand; exact hand.2 hexp)]
        have hcache := get_expired_cache hen2 hf hexp
        refine ⟨by rw [hcache]; exact keysNodup_mapDelete k hnd,
          by rw [hcache]; exact hsort.sublist (mapDelete_sublist _ _),
          ?_, ?_, ?_, ?_, by rw [get_config]; exact hcfg⟩
        · rw [hcache]
          intro e2 he2
          exact Nat.lt_succ_of_lt (hlt e2 (List.mem_of_mem_filter he2))
        · rw [hcache]
          intro e2 he2
          exact hne e2 (List.mem_of_mem_filter he2)
        · rw [hcache]
          exact le_trans (mapDelete_length_le _ _) hlen
        · rw [get_currentSize]
          exact hcs
      · simp only [applyOpT, hf]
        rw [if_pos ⟨hen2, hexp⟩]
        have hcache := (get_hit hen2 hf hexp).2
        have hkeq : e.key = k := (mapFind_some hf).1
        have hemem : e ∈ g.st.cache := (mapFind_some hf).2
        have hdelkeys : ∀ x ∈ mapDelete g.st.cache k, x.key ≠ k := by
          intro x hx
          have := (List.mem_filter.mp hx).2
          simpa using this
        refine ⟨?_, ?_, ?_, ?_, ?_, ?_, by rw [get_config]; exact hcfg⟩
        · rw [hcache]
          refine keysNodup_append_not_has (keysNodup_mapDelete k hnd) ?_
          show mapHas (mapDelete g.st.cache k) e.key = false
          rw [hkeq]
          exact mapHas_mapDelete_self _ _
        · rw [hcache]
          rw [List.pairwise_append]
          refine ⟨?_, List.pairwise_singleton _ _, ?_⟩
          · refine List.Pairwise.imp_of_mem ?_
              (hsort.sublist (mapDelete_sublist _ _))
            intro a b ha hb hr
            simpa [hdelkeys a ha, hdelkeys b hb] using hr
          · intro a ha b hb
            rw [List.mem_singleton] at hb
            subst hb
            simpa [hdelkeys a ha, hkeq] using hlt a (List.mem_of_mem_filter ha)
        · rw [hcache]
          intro x hx
          rcases List.mem_append.mp hx with h | h
          · simpa [hdelkeys x h] using
              Nat.lt_succ_of_lt (hlt x (List.mem_of_mem_filter h))
          · rw [List.mem_singleton] at h
            subst h
            simp [hkeq]
        · rw [hcache]
          intro x hx
          rcases List.mem_append.mp hx with h | h
          · exact hne x (List.mem_of_mem_filter h)
          · rw [List.mem_singleton] at h
            subst h
            show e.key ≠ ""
            exact hne e hemem
        · rw [hcache]
          have h1 := mapDelete_length_lt hemem hkeq
          simp only [List.length_append, List.length_singleton]
          omega
        · rw [get_currentSize]
          exact hcs
  | setOp k v t =>
    have hkop2 : k ≠ "" := hkop
    simp only [applyOpT]
    by_cases hhas : mapHas g.st.cache k = true
    · rw [if_neg (by intro hand; rw [hand.2] at hhas; cases hhas)]
      have hcache := set_cache_of_has (v := v) (t := t) hen2 hhas
      have hkeypres : ∀ x : LRUCacheEntry V,
          ((fun x => if x.key = k then LRUCache.mkEntry k v t g.st.config.ttl
            else x) x).key = x.key := by
        intro x
        by_cases hx : x.key = k
        · simp [hx]
        · simp [hx]
      refine ⟨?_, ?_, ?_, ?_, ?_, ?_, by rw [set_config]; exact hcfg⟩
      · rw [hcache]
        rw [keysNodup, List.pairwise_map]
        refine hnd.imp ?_
        intro a b hab
        rw [hkeypres a, hkeypres b]
        exact hab
      · rw [hcache]
        rw [List.pairwise_map]
        refine hsort.imp ?_
        intro a b hab
        rw [hkeypres a, hkeypres b]
        exact hab
      · rw [hcache]
        intro x hx
        rcases List.mem_map.mp hx with ⟨y, hy, hxy⟩
        subst hxy
        rw [hkeypres y]
        exact Nat.lt_succ_of_lt (hlt y hy)
      · rw [hcache]
        intro x hx
        rcases List.mem_map.mp hx with ⟨y, hy, hxy⟩
        subst hxy
        rw [hkeypres y]
        exact hne y hy
      · rw [hcache, List.length_map]
        exact hlen
      · rw [set_currentSize _ _ _ _ hen2, hcache, List.length_map]
        exact hlen
    · have hhasf : mapHas g.st.cache k = false := by
        simpa using hhas
      rw [if_pos ⟨hen2, hhasf⟩]
      by_cases hcap : g.st.cache.length ≥ g.st.config.maxSize
      · obtain ⟨e0, tl, hc⟩ : ∃ e0 tl, g.st.cache = e0 :: tl := by
          rcases hc : g.st.cache with _ | ⟨e0, tl⟩
          · exfalso
            rw [hc, hcfg] at hcap
            simp only [List.length_nil, ge_iff_le, Nat.le_zero] at hcap
            omega
          · exact ⟨e0, tl, rfl⟩
        have hk0 : e0.key ≠ "" := hne e0 (by rw [hc]; exact List.mem_cons_self _ _)
        have hcache := set_evict_append (v := v) (t := t) hen2 hcap hhasf hc
          hk0 hnd
        have htlsub : ∀ x ∈ tl, x ∈ g.st.cache := by
          intro x hx
          rw [hc]
          exact List.mem_cons_of_mem _ hx
        have htlkeys : ∀ x ∈ tl, x.key ≠ k := by
          intro x hx
          exact mapHas_false_iff.mp hhasf x (htlsub x hx)
        refine ⟨?_, ?_, ?_, ?_, ?_, ?_, by rw [set_config]; exact hcfg⟩
        · rw [hcache]
          refine keysNodup_append_not_has ?_ ?_
          · exact ((List.pairwise_cons.mp (hc ▸ hnd)).2)
          · rw [mkEntry_key, mapHas_false_iff]
            exact htlkeys
        · rw [hcache]
          rw [List.pairwise_append]
          refine ⟨?_, List.pairwise_singleton _ _, ?_⟩
          · refine List.Pairwise.imp_of_mem ?_
              ((List.pairwise_cons.mp (hc ▸ hsort)).2)
            intro a b ha hb hr
            simpa [htlkeys a ha, htlkeys b hb] using hr
          · intro a ha b hb
            rw [List.mem_singleton] at hb
            subst hb
            simpa [htlkeys a ha] using hlt a (htlsub a ha)
        · rw [hcache]
          intro x hx
          rcases List.mem_append.mp hx with h | h
          · simpa [htlkeys x h] using
              Nat.lt_succ_of_lt (hlt x (htlsub x h))
          · rw [List.mem_singleton] at h
            subst h
            simp
        · rw [hcache]
          intro x hx
          rcases List.mem_append.mp hx with h | h
          · exact hne x (htlsub x h)
          · rw [List.mem_singleton] at h
            subst h
            simpa using hkop2
        · rw [hcache]
          have h1 : g.st.cache.length = tl.length + 1 := by
            rw [hc]
            simp
          rw [hcfg] at hcap
          simp only [List.length_append, List.length_singleton]
          omega
        · rw [set_currentSize _ _ _ _ hen2, hcache]
          have h1 : g.st.cache.length = tl.length + 1 := by
            rw [hc]
            simp
          rw [hcfg] at hcap
          simp only [List.length_append, List.length_singleton]
          omega
      · have hlt2 : g.st.cache.length < g.st.config.maxSize := by omega
        have hcache : (LRUCache.set g.st k v t).cache =
            g.st.cache ++ [LRUCache.mkEntry k v t g.st.config.ttl] :=
          set_append hen2 hlt2 hhasf
        have hckeys : ∀ x ∈ g.st.cache, x.key ≠ k := mapHas_false_iff.mp hhasf
        refine ⟨?_, ?_, ?_, ?_, ?_, ?_, by rw [set_config]; exact hcfg⟩
        · rw [hcache]
          refine keysNodup_append_not_has hnd ?_
          rw [mkEntry_key]
          exact hhasf
        · rw [hcache]
          rw [List.pairwise_append]
          refine ⟨?_, List.pairwise_singleton _ _, ?_⟩
          · refine List.Pairwise.imp_of_mem ?_ hsort
            intro a b ha hb hr
            simpa [hckeys a ha, hckeys b hb] using hr
          · intro a ha b hb
            rw [List.mem_singleton] at hb
            subst hb
            simpa [hckeys a ha] using hlt a ha
        · rw [hcache]
          intro x hx
          rcases List.mem_append.mp hx with h | h
          · simpa [hckeys x h] using Nat.lt_succ_of_lt (hlt x h)
          · rw [List.mem_singleton] at h
            subst h
            simp
        · rw [hcache]
          intro x hx
          rcases List.mem_append.mp hx with h | h
          · exact hne x h
          · rw [List.mem_singleton] at h
            subst h
            simpa using hkop2
        · rw [hcache]
          rw [hcfg] at hlt2
          simp only [List.length_append, List.length_singleton]
          omega
        · rw [set_currentSize _ _ _ _ hen2, hcache]
          rw [hcfg] at hlt2
          simp only [List.length_append, List.length_singleton]
          omega

theorem runT_inv {V : Type} {cfg : LRUCacheConfig} (hen : cfg.enabled = true)
    (hmax : 1 ≤ cfg.maxSize) (ops : List (CacheOp V))
    (hk : ∀ op ∈ ops, CacheOp.key op ≠ "") :
    CInv cfg (runT (initT cfg) ops) := by
  suffices h : ∀ (g : TouchState V), CInv cfg g → CInv cfg (runT g ops) by
    refine h (initT cfg) ?_
    refine ⟨List.Pairwise.nil, List.Pairwise.nil, ?_, ?_, ?_, ?_, rfl⟩
    · intro e he; cases he
    · intro e he; cases he
    · show 0 ≤ cfg.maxSize
      omega
    · show 0 ≤ cfg.maxSize
      omega
  induction ops with
  | nil => intro g h; exact h
  | cons op ops ih =>
    intro g h
    have hop : CacheOp.key op ≠ "" := hk op (List.mem_cons_self _ _)
    have hrest : ∀ op2 ∈ ops, CacheOp.key op2 ≠ "" := by
      intro op2 hop2
      exact hk op2 (List.mem_cons_of_mem _ hop2)
    exact ih hrest (applyOpT g op) (applyOpT_inv hen hmax hop h)



/-- C1 (amended): on an enabled cache with `maxSize ≥ 1`, over any run of
`set`/`get` operations all of whose keys are non-empty strings, the table
size and the reported `currentSize` never exceed `maxSize`; and whenever a
further `set` on an absent key finds the table at capacity, the entry it
removes is exactly the head of the `Map` order, which is the entry least
recently touched — where a touch is a `get` hit or the insertion of a new
key, but *not* an overwrite of a resident key (JS `Map.set` keeps an
existing key's position), and the empty-string key is excluded because
`evictLRU`'s `if (firstKey)` guard is falsy on it and skips eviction. -/
theorem lru_size_bound_and_eviction_order {V : Type} (cfg : LRUCacheConfig)
    (hen : cfg.enabled = true) (hmax : 1 ≤ cfg.maxSize)
    (ops : List (CacheOp V)) (hk : ∀ op ∈ ops, CacheOp.key op ≠ "") :
    ((runT (initT cfg) ops).st.cache.length ≤ cfg.maxSize ∧
      (runT (initT cfg) ops).st.stats.currentSize ≤ cfg.maxSize) ∧
    (∀ (k : String) (v : V) (t : Nat),
      mapHas (runT (initT cfg) ops).st.cache k = false →
      (runT (initT cfg) ops).st.cache.length ≥ cfg.maxSize →
      ∃ e0 tl, (runT (initT cfg) ops).st.cache = e0 :: tl ∧
        (∀ e ∈ (runT (initT cfg) ops).st.cache,
          (runT (initT cfg) ops).touch e0.key ≤
            (runT (initT cfg) ops).touch e.key) ∧
        (LRUCache.set (runT (initT cfg) ops).st k v t).cache =
          tl ++ [LRUCache.mkEntry k v t cfg.ttl]) := by
  obtain ⟨hnd, hsort, hlt, hne, hlen, hcs, hcfg⟩ := runT_inv hen hmax ops hk
  refine ⟨⟨hlen, hcs⟩, ?_⟩
  intro k v t hhas hcap
  obtain ⟨e0, tl, hc⟩ : ∃ e0 tl,
      (runT (initT cfg) ops).st.cache = e0 :: tl := by
    rcases hc2 : (runT (initT cfg) ops).st.cache with _ | ⟨e0, tl⟩
    · exfalso
      rw [hc2] at hcap
      simp only [List.length_nil, ge_iff_le, Nat.le_zero] at hcap
      omega
    · exact ⟨e0, tl, rfl⟩
  have hk0 : e0.key ≠ "" := hne e0 (by rw [hc]; exact List.mem_cons_self _ _)
  refine ⟨e0, tl, hc, ?_, ?_⟩
  · intro e hemem
    rw [hc] at hemem
    rcases List.mem_cons.mp hemem with h | h
    · subst h
      exact le_refl _
    · exact le_of_lt ((List.pairwise_cons.mp (hc ▸ hsort)).1 e h)
  · have hen2 : (runT (initT cfg) ops).st.config.enabled = true := by
      rw [hcfg]
      exact hen
    have hcap2 : (runT (initT cfg) ops).st.cache.length ≥
        (runT (initT cfg) ops).st.config.maxSize := by
      rw [hcfg]
      exact hcap
    have hce := set_evict_append (v := v) (t := t) hen2 hcap2 hhas hc hk0 hnd
    rw [hce, hcfg]

/-- Witness for the amended C1: after `set a; set b; get a` at capacity 2,
setting a fresh key evicts the head entry, whose touch time is minimal. -/
theorem lru_size_bound_and_eviction_order_witness :
    ((runT (initT (V := Nat) ⟨true, 2, 1000⟩)
        [CacheOp.setOp "a" 0 0, CacheOp.setOp "b" 0 1,
          CacheOp.getOp "a" 2]).st.cache.length ≤ 2) ∧
    (∃ e0 tl, (runT (initT (V := Nat) ⟨true, 2, 1000⟩)
        [CacheOp.setOp "a" 0 0, CacheOp.setOp "b" 0 1,
          CacheOp.getOp "a" 2]).st.cache = e0 :: tl ∧
      (∀ e ∈ (runT (initT (V := Nat) ⟨true, 2, 1000⟩)
          [CacheOp.setOp "a" 0 0, CacheOp.setOp "b" 0 1,
            CacheOp.getOp "a" 2]).st.cache,
        (runT (initT (V := Nat) ⟨true, 2, 1000⟩)
          [CacheOp.setOp "a" 0 0, CacheOp.setOp "b" 0 1,
            CacheOp.getOp "a" 2]).touch e0.key ≤
          (runT (initT (V := Nat) ⟨true, 2, 1000⟩)
            [CacheOp.setOp "a" 0 0, CacheOp.setOp "b" 0 1,
              CacheOp.getOp "a" 2]).touch e.key) ∧
      (LRUCache.set (runT (initT (V := Nat) ⟨true, 2, 1000⟩)
          [CacheOp.setOp "a" 0 0, CacheOp.setOp "b" 0 1,
            CacheOp.getOp "a" 2]).st "c" 0 5).cache =
        tl ++ [LRUCache.mkEntry "c" 0 5 1000]) := by
  have h := lru_size_bound_and_eviction_order (V := Nat) ⟨true, 2, 1000⟩ rfl
    (by decide) [CacheOp.setOp "a" 0 0, CacheOp.setOp "b" 0 1,
      CacheOp.getOp "a" 2] (by decide)
  exact ⟨h.1.1, h.2 "c" 0 5 (by decide) (by decide)⟩


end Toonify
